import Mathlib

/-!
Verification of the artifact migration tools
(`src/cli/migrate-artifacts.py` and `src/cli/fix-artifact-links.py`)
of the nexus-ai-chat-importer repository.

Strings are modelled as `List Char` (`Str`).  The regular-expression
character classes of the source are modelled over Unicode scalar values;
`\s` is modelled by the common whitespace characters (the scenarios in
this development only ever use ASCII whitespace), `\w` and `\d` by their
ASCII meaning.
-/

set_option maxRecDepth 4000

abbrev Str := List Char

/-- Convert a Lean string literal into the `List Char` model. -/
def str (s : String) : Str := s.toList

/-- Model of Python's `\s` / `str.strip()` whitespace test. -/
def isSpace (c : Char) : Bool :=
  match c with
  | ' ' | '\t' | '\n' | '\r' | '\x0b' | '\x0c' | '\u0085' | ' ' => true
  | _ => false

/-- The forbidden-character class of `sanitize`
(`[/\\:*?"<>|#^\[\].\'\"''""]` in the source): the raw string is pure
ASCII, with each straight quote listed several times (`\'`, `\"` and the
bare `''""`), so the set is exactly
`/ \ : * ? " < > | # ^ [ ] . '` and the straight double quote — Unicode
curly quotes are not in the class. -/
def isForbidden (c : Char) : Bool :=
  match c with
  | '/' | '\\' | ':' | '*' | '?' | '"' | '<' | '>' | '|'
  | '#' | '^' | '[' | ']' | '.' | '\'' => true
  | _ => false

/-- Model of `re.sub(r"\s+", " ", ·)`: collapse every maximal run of whitespace to a
single space.  The boolean argument records whether the previous character
belonged to a whitespace run that has already emitted its space. -/
def collapseAux : Bool → List Char → List Char
  | _, [] => []
  | prevSp, c :: rest =>
    if isSpace c then
      if prevSp then collapseAux true rest
      else ' ' :: collapseAux true rest
    else c :: collapseAux false rest

def collapseWs (l : List Char) : List Char := collapseAux false l

/-- Remove trailing whitespace (the right half of Python `str.strip()`). -/
def stripEnd : List Char → List Char
  | [] => []
  | c :: rest =>
    match stripEnd rest with
    | [] => if isSpace c then [] else [c]
    | r => c :: r

/-- Python `str.strip()` (no argument): drop leading and trailing whitespace. -/
def pyStrip (l : Str) : Str := stripEnd (l.dropWhile isSpace)

/-- Model of `sanitize` from `migrate-artifacts.py`: replace each forbidden character
with `_`, collapse whitespace runs to single spaces, strip the ends. -/
def sanitize (s : Str) : Str :=
  pyStrip (collapseWs (s.map (fun c => if isForbidden c then '_' else c)))

-- Auxiliary facts about the whitespace machinery, used for C7.

/-- Head of the list is absent or not whitespace. -/
def headNotSpace : List Char → Bool
  | [] => true
  | c :: _ => !isSpace c

/-- Canonical whitespace shape: every whitespace character is a single `' '`
not followed by further whitespace. -/
def canonWs : List Char → Prop
  | [] => True
  | c :: rest => (isSpace c = true → c = ' ' ∧ headNotSpace rest = true) ∧ canonWs rest

/-- Last element of the list is absent or not whitespace. -/
def lastNotSpace (l : List Char) : Bool :=
  match l.getLast? with
  | none => true
  | some c => !isSpace c

/-!
## Frontmatter extractor (`parse_frontmatter` in both tools)

File contents are `Str`; an unreadable file is `none`.  `pyReadLines`
models `readlines()` followed by `rstrip("\n")` on each line (text-mode
reads use universal newlines, so a line holds no `\n` or `\r`).
-/

/-- Split a character list at every occurrence of a separator character. -/
def splitOnChar (sep : Char) : List Char → List Str
  | [] => [[]]
  | c :: rest =>
    let r := splitOnChar sep rest
    if c = sep then [] :: r
    else (c :: r.headD []) :: r.tail

/-- Model of `readlines()` followed by per-line `rstrip("\n")`. -/
def pyReadLines (content : Str) : List Str :=
  if content = [] then []
  else if content.getLast? = some '\n' then (splitOnChar '\n' content).dropLast
  else splitOnChar '\n' content

/-- Python `\w` (word character), ASCII fragment. -/
def isWordChar (c : Char) : Bool := c.isAlphanum || c = '_'

/-- Model of `re.match(r"^(\w+):\s*(.+)$", line)`: the key is the maximal
nonempty word-character prefix, followed by `:`; the greedy `\s*` then
leaves the remainder after the maximal whitespace run as the value, except
that when the remainder after `:` is nonempty pure whitespace, backtracking
makes `(.+)` capture its final character. -/
def matchKV (l : Str) : Option (Str × Str) :=
  let key := l.takeWhile isWordChar
  let rest := l.dropWhile isWordChar
  if key = [] then none
  else
    match rest with
    | ':' :: r =>
      match r.dropWhile isSpace with
      | [] =>
        match r.getLast? with
        | none => none
        | some c => some (key, [c])
      | v => some (key, v)
    | _ => none

def fmSentinel : Str := str "---"

/-- The line scan of `parse_frontmatter`: the boolean is the `in_fm` flag;
the first sentinel toggles it on, a second sentinel stops the scan. -/
def parseFMLines : List Str → Bool → List (Str × Str)
  | [], _ => []
  | l :: rest, inFm =>
    if l = fmSentinel then
      if inFm then [] else parseFMLines rest true
    else if inFm then
      match matchKV l with
      | some kv => kv :: parseFMLines rest true
      | none => parseFMLines rest true
    else parseFMLines rest false

def parseFMCore (lines : List Str) : List (Str × Str) := parseFMLines lines false

/-- Model of `parse_frontmatter`: an unreadable file (`none`) contributes an empty
mapping. -/
def parse_frontmatter (content : Option Str) : List (Str × Str) :=
  match content with
  | none => []
  | some c => parseFMCore (pyReadLines c)

/-- Dictionary lookup with last-write-wins semantics and `""` default,
modelling `fm[k] = v` assignments followed by `fm.get(k, "")`. -/
def fmGet (fm : List (Str × Str)) (k : Str) : Str :=
  match (fm.filter (fun p => p.1 = k)).getLast? with
  | none => []
  | some p => p.2

/-- Model of `fm.get(k, d)` where a missing key yields the default `d`; stored
values are never empty, so the empty string marks absence. -/
def fmGetD (fm : List (Str × Str)) (k d : Str) : Str :=
  match fmGet fm k with
  | [] => d
  | v => v

/-!
## Field normalizers
-/

/-- Python `str.strip(chars)`: remove characters of the set from both ends. -/
def pyStripChars (cs : List Char) (l : Str) : Str :=
  ((l.dropWhile (fun c => cs.contains c)).reverse.dropWhile (fun c => cs.contains c)).reverse

/-- Model of `extract_first_alias` from `migrate-artifacts.py`: strip, drop one
leading `[` and one trailing `]`, split on `,`, take the first part,
strip whitespace and surrounding quotes. -/
def extract_first_alias (s : Str) : Str :=
  let content := pyStrip s
  let content := if content.head? = some '[' then content.tail else content
  let content := if content.getLast? = some ']' then content.dropLast else content
  let first := pyStrip ((splitOnChar ',' content).headD [])
  pyStrip (pyStripChars ['\'', '"'] first)

/-- Model of `extract_second_alias` from `fix-artifact-links.py`: strip, strip all
leading/trailing bracket characters, split on `,`, strip each part, return
the part at index 1 when it exists, else the empty string. -/
def extract_second_alias (s : Str) : Str :=
  let content := pyStripChars ['[', ']'] (pyStrip s)
  let parts := (splitOnChar ',' content).map (fun p => pyStrip (pyStripChars ['\'', '"'] (pyStrip p)))
  if 1 < parts.length then parts.getD 1 [] else []

/-- Model of `date_prefix` from `migrate-artifacts.py`: match
`^(\d{4})-(\d{2})-(\d{2})T` and return `YYYY-MM-DD`, else the empty
string. -/
def datePrefixOf (s : Str) : Str :=
  match s.take 11 with
  | [y1, y2, y3, y4, h1, m1, m2, h2, d1, d2, t] =>
    if y1.isDigit ∧ y2.isDigit ∧ y3.isDigit ∧ y4.isDigit ∧ h1 = '-' ∧
       m1.isDigit ∧ m2.isDigit ∧ h2 = '-' ∧ d1.isDigit ∧ d2.isDigit ∧ t = 'T'
    then [y1, y2, y3, y4, '-', m1, m2, '-', d1, d2]
    else []
  | _ => []

/-- Python `int(s)` on the strings this program feeds it: optional
surrounding whitespace, optional sign, nonempty digit run. -/
def pyIntOf (s : Str) : Option Int :=
  let t := pyStrip s
  let p : Int × Str :=
    match t with
    | '+' :: r => (1, r)
    | '-' :: r => (-1, r)
    | r => (1, r)
  if p.2 ≠ [] ∧ p.2.all Char.isDigit then
    some (p.1 * (p.2.foldl (fun acc c => acc * 10 + (c.toNat - 48)) 0 : Nat))
  else none

def isHexLower (c : Char) : Bool := c.isDigit || ('a' ≤ c && c ≤ 'f')

/-- The UUID shape `[0-9a-f]` in groups 8-4-4-4-12, anchored at both ends. -/
def matchesUuid (s : Str) : Bool :=
  s.length = 36 &&
  (List.range 36).all (fun i =>
    if i = 8 ∨ i = 13 ∨ i = 18 ∨ i = 23 then s.getD i ' ' = '-'
    else isHexLower (s.getD i ' '))

/-- The dated-prefix pattern `^\d{4}-\d{2}-\d{2} - ` (a prefix match). -/
def matchesDated (s : Str) : Bool :=
  match s.take 13 with
  | [y1, y2, y3, y4, h1, m1, m2, h2, d1, d2, sp1, dsh, sp2] =>
    y1.isDigit ∧ y2.isDigit ∧ y3.isDigit ∧ y4.isDigit ∧ h1 = '-' ∧
    m1.isDigit ∧ m2.isDigit ∧ h2 = '-' ∧ d1.isDigit ∧ d2.isDigit ∧
    sp1 = ' ' ∧ dsh = '-' ∧ sp2 = ' '
  | _ => false

/-!
## Vault model

The artifacts area is a list of folders (top-level directories of
`AI/Attachments/claude/artifacts`), each holding named files; the
conversations area is the flattened `os.walk` order of
`AI/Conversations/claude`.  `none` for a directory means the directory is
absent, `none` for a file content means the file is unreadable.
-/

structure AFile where
  name : Str
  content : Option Str
deriving DecidableEq

structure Folder where
  name : Str
  files : List AFile
deriving DecidableEq

/-- Filesystem mutations actually performed by a run. -/
inductive Op where
  | fileRename (folder old new : Str)
  | folderRename (old new : Str)
  | fileMove (srcFolder dstFolder nm : Str)
  | rmdir (folder : Str)
  | fileWrite (area nm : Str)
deriving DecidableEq

structure FS where
  artifacts : Option (List Folder)
  conversations : Option (List AFile)
deriving DecidableEq

def mdSuffix : Str := str ".md"

def isMd (nm : Str) : Bool := mdSuffix.isSuffixOf nm

/-- Lexicographic comparison on code points (Python string `sorted`). -/
def strLeB : Str → Str → Bool
  | [], _ => true
  | _ :: _, [] => false
  | a :: as, b :: bs => if a = b then strLeB as bs else decide (a.toNat < b.toNat)

def strLe (a b : Str) : Prop := strLeB a b = true

instance : DecidableRel strLe := fun a b => by unfold strLe; infer_instance

def sortStr (l : List Str) : List Str := List.insertionSort strLe l

/-!
## Conversation index builder (`build_conversation_index`)
-/

structure ConvRec where
  cid : Str
  aliases : Str
  ctime : Str
deriving DecidableEq

def buildIdx (convs : List AFile) : List ConvRec :=
  convs.foldl (fun acc f =>
    if isMd f.name then
      let fm := parse_frontmatter f.content
      let cid := fmGet fm (str "conversation_id")
      let al := fmGet fm (str "aliases")
      if cid ≠ [] ∧ al ≠ [] then acc ++ [⟨cid, al, fmGet fm (str "create_time")⟩]
      else acc
    else acc) []

def lastFor (idx : List ConvRec) (cid : Str) : Option ConvRec :=
  (idx.filter (fun r => r.cid = cid)).getLast?

/-- Lookup modelling `conv_titles.get(cid, "")`. -/
def titleOf (idx : List ConvRec) (cid : Str) : Str :=
  match lastFor idx cid with
  | none => []
  | some r => r.aliases

/-- Lookup modelling `conv_dates.get(cid, "")`. -/
def dateOf (idx : List ConvRec) (cid : Str) : Str :=
  match lastFor idx cid with
  | none => []
  | some r => r.ctime

/-!
## Artifact migrator (`main` of `migrate-artifacts.py`)
-/

/-- The new file name computed for an artifact file from its frontmatter
(lines 164–185 of `migrate-artifacts.py`); `none` when the file has no
usable title and is skipped. -/
def artNameOf (content : Option Str) : Option Str :=
  let fm := parse_frontmatter content
  let aliases := fmGet fm (str "aliases")
  let artTitle := if aliases = [] then [] else extract_first_alias aliases
  if artTitle = [] then none
  else
    let ver := fmGetD fm (str "version_number") (str "1")
    let base := sanitize artTitle
    let base1 :=
      match pyIntOf ver with
      | some v => if 1 < v then base ++ str " v" ++ ver else base
      | none => base
    let adp := datePrefixOf (fmGet fm (str "create_time"))
    let nm := if adp = [] then base1 else adp ++ str " - " ++ base1
    some (nm ++ mdSuffix)

/-- Model of `os.rename` inside one folder: silently replaces an existing entry
with the target name. -/
def renameFile (files : List AFile) (old new : Str) : List AFile :=
  match files.find? (fun f => f.name = old) with
  | none => files
  | some f => (files.filter (fun g => g.name ≠ old ∧ g.name ≠ new)) ++ [⟨new, f.content⟩]

/-- One iteration of the per-file rename loop for the snapshot name `n`. -/
def migFileStep (dry : Bool) (folderName : Str) (files : List AFile) (n : Str) :
    List AFile × List Op :=
  if ¬ isMd n then (files, [])
  else
    match files.find? (fun f => f.name = n) with
    | none => (files, [])
    | some f =>
      match artNameOf f.content with
      | none => (files, [])
      | some m =>
        if n = m then (files, [])
        else if dry then (files, [])
        else (renameFile files n m, [Op.fileRename folderName n m])

def migFilesLoop (dry : Bool) (folderName : Str) : List AFile → List Str → List AFile × List Op
  | files, [] => (files, [])
  | files, n :: ns =>
    let p := migFileStep dry folderName files n
    let q := migFilesLoop dry folderName p.1 ns
    (q.1, p.2 ++ q.2)

/-- The merge loop (lines 201–205): move each source entry whose name is
absent from the destination; return the entries left behind, the new
destination contents, and the moves performed. -/
def mergeInto (srcName dstName : Str) : List AFile → List AFile → List AFile × List AFile × List Op
  | [], dst => ([], dst, [])
  | f :: rest, dst =>
    if dst.any (fun g => g.name = f.name) then
      let p := mergeInto srcName dstName rest dst
      (f :: p.1, p.2.1, p.2.2)
    else
      let p := mergeInto srcName dstName rest (dst ++ [f])
      (p.1, p.2.1, Op.fileMove srcName dstName f.name :: p.2.2)

/-- The new folder name computed for a UUID folder (lines 151–155). -/
def targetName (idx : List ConvRec) (cid : Str) : Str :=
  let cdp := datePrefixOf (dateOf idx cid)
  let safe := sanitize (titleOf idx cid)
  if cdp = [] then safe else cdp ++ str " - " ++ safe

def updFiles (st : List Folder) (nm : Str) (files : List AFile) : List Folder :=
  st.map (fun G => if G.name = nm then ⟨G.name, files⟩ else G)

/-- Processing of one top-level artifacts entry (the body of the main loop,
lines 129–214): skip non-directories, dated names, non-UUID names and
folders without a conversation title; otherwise rename the files inside,
then rename the folder, merging without overwrite if the target exists and
removing the emptied source (removal failure tolerated). -/
def migStep (idx : List ConvRec) (dry : Bool) (st : List Folder) (entry : Str) :
    List Folder × List Op :=
  match st.find? (fun F => F.name = entry) with
  | none => (st, [])
  | some F =>
    if matchesDated entry then (st, [])
    else if ¬ matchesUuid entry then (st, [])
    else if titleOf idx entry = [] then (st, [])
    else
      let newName := targetName idx entry
      let p := migFilesLoop dry entry F.files (sortStr (F.files.map (fun f => f.name)))
      let st1 := updFiles st entry p.1
      if entry = newName then (st1, p.2)
      else if dry then (st1, p.2)
      else
        match st1.find? (fun G => G.name = newName) with
        | some D =>
          let q := mergeInto entry newName p.1 D.files
          let st2 := updFiles st1 newName q.2.1
          if q.1 = [] then
            (st2.filter (fun G => G.name ≠ entry), p.2 ++ q.2.2 ++ [Op.rmdir entry])
          else
            (updFiles st2 entry q.1, p.2 ++ q.2.2)
        | none =>
          (st1.map (fun G => if G.name = entry then ⟨newName, G.files⟩ else G),
           p.2 ++ [Op.folderRename entry newName])

def migrateList (idx : List ConvRec) (dry : Bool) : List Folder → List Str → List Folder × List Op
  | st, [] => (st, [])
  | st, e :: es =>
    let p := migStep idx dry st e
    let q := migrateList idx dry p.1 es
    (q.1, p.2 ++ q.2)

/-- The full migration pass over the artifacts area: iterate the sorted
snapshot of top-level names. -/
def migrateRun (idx : List ConvRec) (dry : Bool) (st : List Folder) : List Folder × List Op :=
  migrateList idx dry st (sortStr (st.map (fun F => F.name)))

structure RunOut where
  code : Nat
  fs : FS
  ops : List Op
deriving DecidableEq

def dryFlag : Str := str "--dry-run"

/-- Model of `main` of `migrate-artifacts.py`: exit 1 on a missing vault argument or
a missing artifacts directory; otherwise run the migration (a missing
conversations directory yields an empty index). -/
def migrateMain (argv : List Str) (fs : FS) : RunOut :=
  if argv.length < 2 then ⟨1, fs, []⟩
  else
    match fs.artifacts with
    | none => ⟨1, fs, []⟩
    | some folders =>
      let dry := decide (dryFlag ∈ argv)
      let idx := buildIdx (fs.conversations.getD [])
      let p := migrateRun idx dry folders
      ⟨0, ⟨some p.1, fs.conversations⟩, p.2⟩

/-!
## Link rewriter (`main` of `fix-artifact-links.py`)
-/

/-- Substring containment, Python `pat in s`. -/
def containsSub : Str → Str → Bool
  | [], pat => pat.isPrefixOf []
  | s@(_ :: rest), pat => pat.isPrefixOf s || containsSub rest pat

/-- Worker for `listReplace`: every step consumes at least one character,
so `s.length` steps of fuel always suffice. -/
def listReplaceFuel : Nat → Str → Str → Str → Str
  | 0, s, _, _ => s
  | _ + 1, [], _, _ => []
  | fuel + 1, c :: rest, pat, rep =>
    if pat ≠ [] ∧ pat.isPrefixOf (c :: rest) then
      rep ++ listReplaceFuel fuel ((c :: rest).drop pat.length) pat rep
    else c :: listReplaceFuel fuel rest pat rep

/-- Python `s.replace(pat, rep)` for a nonempty pattern: leftmost,
non-overlapping, scanning resumes after each replacement. -/
def listReplace (s pat rep : Str) : Str := listReplaceFuel s.length s pat rep

/-- Python `dict` insertion: an existing key keeps its position and gets the
new value, a new key is appended. -/
def dictInsert (m : List (Str × Str)) (k v : Str) : List (Str × Str) :=
  if m.any (fun p => p.1 = k) then m.map (fun p => if p.1 = k then (k, v) else p)
  else m ++ [(k, v)]

def artRoot : Str := str "AI/Attachments/claude/artifacts/"

def artifactsToken : Str := str "artifacts/"

def markerOld : Str := str "🎨 [["

def markerNew : Str := str "![["

/-- The mapping entry contributed by one artifact file during the
index-building pass (lines 70–95 of `fix-artifact-links.py`). -/
def linkEntryOf (folderName : Str) (f : AFile) : Option (Str × Str) :=
  if ¬ isMd f.name then none
  else
    let fm := parse_frontmatter f.content
    let cid := fmGet fm (str "conversation_id")
    let al := fmGet fm (str "aliases")
    if cid = [] ∨ al = [] then none
    else
      let oldStem := extract_second_alias al
      if oldStem = [] then none
      else
        let newStem := f.name.take (f.name.length - 3)
        let oldLink := artRoot ++ cid ++ '/' :: oldStem
        let newLink := artRoot ++ folderName ++ '/' :: newStem
        if oldLink = newLink then none else some (oldLink, newLink)

/-- The contribution of the directory named `n` to the link map. -/
def buildFolderMap (folders : List Folder) (lm : List (Str × Str)) (n : Str) : List (Str × Str) :=
  match folders.find? (fun F => F.name = n) with
  | none => lm
  | some F =>
    F.files.foldl (fun lm f =>
      match linkEntryOf n f with
      | some p => dictInsert lm p.1 p.2
      | none => lm) lm

def buildLinkMapList (folders : List Folder) : List Str → List (Str × Str) → List (Str × Str)
  | [], lm => lm
  | n :: ns, lm => buildLinkMapList folders ns (buildFolderMap folders lm n)

/-- Pass 1: visit every top-level artifacts directory in sorted name order
and every file inside, recording old-link → new-link pairs. -/
def buildLinkMap (folders : List Folder) : List (Str × Str) :=
  buildLinkMapList folders (sortStr (folders.map (fun F => F.name))) []

/-- Apply every mapping entry in insertion order (lines 121–123 and
161–163): a containment test, then a global replace. -/
def applyLinkMap (lm : List (Str × Str)) (c : Str) : Str :=
  lm.foldl (fun acc p => if containsSub acc p.1 then listReplace acc p.1 p.2 else acc) c

/-- Pass 2 on one conversation file: skip non-`.md` names, unreadable files
and files without `artifacts/`; otherwise apply the link map and then the
`🎨 [[` → `![[` marker rewrite, writing only when the text changed and not
in dry-run mode. -/
def fixConvFile (lm : List (Str × Str)) (dry : Bool) (f : AFile) : AFile :=
  if ¬ isMd f.name then f
  else
    match f.content with
    | none => f
    | some c =>
      if ¬ containsSub c artifactsToken then f
      else
        let c1 := applyLinkMap lm c
        let c2 := if containsSub c1 markerOld then listReplace c1 markerOld markerNew else c1
        if c2 ≠ c then (if dry then f else ⟨f.name, some c2⟩) else f

/-- Pass 3 on one artifact file (lines 147–171): as the conversation pass
but with only the link-map substitution, no marker rewrite. -/
def fixArtFile (lm : List (Str × Str)) (dry : Bool) (f : AFile) : AFile :=
  if ¬ isMd f.name then f
  else
    match f.content with
    | none => f
    | some c =>
      if ¬ containsSub c artifactsToken then f
      else
        let c1 := applyLinkMap lm c
        if c1 ≠ c then (if dry then f else ⟨f.name, some c1⟩) else f

/-- Model of `main` of `fix-artifact-links.py`: exit 1 on a missing vault argument;
listing a missing artifacts directory raises, which also terminates the
process with status 1 before any mutation; a missing conversations
directory makes the conversation pass visit nothing. -/
def fixMain (argv : List Str) (fs : FS) : Nat × FS :=
  if argv.length < 2 then (1, fs)
  else
    match fs.artifacts with
    | none => (1, fs)
    | some folders =>
      let dry := decide (dryFlag ∈ argv)
      let lm := buildLinkMap folders
      let convs := fs.conversations.map (fun l => l.map (fixConvFile lm dry))
      let arts := folders.map (fun F => ⟨F.name, F.files.map (fixArtFile lm dry)⟩)
      (0, ⟨some arts, convs⟩)

/-!
## Concrete scenarios

`joinLines` builds file contents with a trailing newline per line.
-/

def joinLines (ls : List String) : Str := (ls.map (fun s => str s ++ ['\n'])).flatten

def argvPlain : List Str := [str "tool.py", str "/vault"]

def uu1 : Str := str "11111111-1111-1111-1111-111111111111"

def uu2 : Str := str "22222222-2222-2222-2222-222222222222"

/-- The artifact file of the end-to-end scenario of the specification. -/
def c1draft : Str := joinLines
  ["---",
   "conversation_id: 11111111-1111-1111-1111-111111111111",
   "aliases: [My Title, draft]",
   "create_time: 2024-01-02T00:00:00Z",
   "version_number: 2",
   "---",
   "body"]

/-- The conversation record of the end-to-end scenario, with the scenario's
frontmatter `aliases: [My Conversation]` and a body holding one artifact
wikilink. -/
def c1conv : Str := joinLines
  ["---",
   "conversation_id: 11111111-1111-1111-1111-111111111111",
   "aliases: [My Conversation]",
   "create_time: 2024-01-01T00:00:00Z",
   "---",
   "See ![[AI/Attachments/claude/artifacts/11111111-1111-1111-1111-111111111111/draft|Draft]]"]

def c1fs : FS :=
  ⟨some [⟨uu1, [⟨str "draft.md", some c1draft⟩]⟩],
   some [⟨str "conv.md", some c1conv⟩]⟩

/-- The conversation record after link fixing: the old link is replaced by
the new one, whose folder segment carries the underscores produced by
sanitizing the raw `[My Conversation]` aliases value. -/
def c1convFixed : Str := joinLines
  ["---",
   "conversation_id: 11111111-1111-1111-1111-111111111111",
   "aliases: [My Conversation]",
   "create_time: 2024-01-01T00:00:00Z",
   "---",
   "See ![[AI/Attachments/claude/artifacts/2024-01-01 - _My Conversation_/2024-01-02 - My Title v2|Draft]]"]

/-- Artifact frontmatter shared by the collision scenarios. -/
def artFileFm : Str := joinLines
  ["---", "aliases: [Report, x]", "create_time: 2024-05-05T00:00:00Z", "---"]

/-- Same frontmatter, different body. -/
def artFileFmB : Str := joinLines
  ["---", "aliases: [Report, x]", "create_time: 2024-05-05T00:00:00Z", "---", "B"]

def c3conv1 : Str := joinLines
  ["---", "conversation_id: 11111111-1111-1111-1111-111111111111",
   "aliases: Proj", "create_time: 2024-03-03T00:00:00Z", "---"]

def c3conv2 : Str := joinLines
  ["---", "conversation_id: 22222222-2222-2222-2222-222222222222",
   "aliases: Proj", "create_time: 2024-03-03T00:00:00Z", "---"]

/-- Two UUID folders whose conversations share title and date, each holding
one file that renames to the same name. -/
def c3fs : FS :=
  ⟨some [⟨uu1, [⟨str "a.md", some artFileFm⟩]⟩, ⟨uu2, [⟨str "b.md", some artFileFmB⟩]⟩],
   some [⟨str "c1.md", some c3conv1⟩, ⟨str "c2.md", some c3conv2⟩]⟩

/-- One UUID folder holding two files whose frontmatter computes the same
new name. -/
def c4fs : FS :=
  ⟨some [⟨uu1, [⟨str "a.md", some artFileFm⟩, ⟨str "b.md", some artFileFmB⟩]⟩],
   some [⟨str "c1.md", some c3conv1⟩]⟩

def c2conv1 : Str := joinLines
  ["---", "conversation_id: 11111111-1111-1111-1111-111111111111",
   "aliases: 22222222-2222-2222-2222-222222222222", "---"]

def c2conv2 : Str := joinLines
  ["---", "conversation_id: 22222222-2222-2222-2222-222222222222",
   "aliases: Chat", "---"]

/-- A vault where the conversation title of `uu1` is itself a UUID string
and no record has a `create_time`: the first run renames `uu1` to `uu2`,
which the second run processes again. -/
def c2fs : FS :=
  ⟨some [⟨uu1, []⟩], some [⟨str "c1.md", some c2conv1⟩, ⟨str "c2.md", some c2conv2⟩]⟩

/-!
## C5: index scope of the link rewriter
-/

/-- An artifact file inside a (non-dated) UUID folder whose second alias
differs from its filename stem. -/
def c5art : Str := joinLines
  ["---", "conversation_id: 11111111-1111-1111-1111-111111111111",
   "aliases: [T, bar]", "---"]

def c5folders : List Folder := [⟨uu1, [⟨str "foo.md", some c5art⟩]⟩]

/-- The inner file fold of `buildFolderMap`. -/
def fileFoldStep (n : Str) (lm : List (Str × Str)) (f : AFile) : List (Str × Str) :=
  match linkEntryOf n f with
  | some p => dictInsert lm p.1 p.2
  | none => lm

/-!
## C6: legacy marker normalization
-/

/-- An artifact-folder document containing both `artifacts/` and the legacy
marker, with no frontmatter. -/
def c6art : Str := str "artifacts/ 🎨 [[y]]"

def c6fs : FS := ⟨some [⟨str "2024-01-01 - X", [⟨str "a.md", some c6art⟩]⟩], some []⟩

/-!
## C2 amended: idempotence of the migrator

A vault is well-formed when top-level folder names and per-folder file
names are distinct, as on a real filesystem.  The index is dated when
every record that can supply a title carries a parsable creation date —
the counterexample `c2_counterexample` exploits exactly the undated case.
-/

def wfFolders (l : List Folder) : Prop :=
  (l.map Folder.name).Nodup ∧ ∀ F ∈ l, (F.files.map AFile.name).Nodup

/-- A file whose computed name, when it has one, is its current name:
the per-file rename loop does nothing to it. -/
def stableFile (f : AFile) : Prop :=
  isMd f.name = true → artNameOf f.content = none ∨ artNameOf f.content = some f.name

/-- A UUID folder left behind by a merge: its files are stable and all
their names already exist in the still-present target folder. -/
def LeftoverInv (idx : List ConvRec) (st : List Folder) (F : Folder) : Prop :=
  (∀ f ∈ F.files, stableFile f) ∧ F.files ≠ [] ∧
  ∃ D ∈ st, D.name = targetName idx F.name ∧
    ∀ f ∈ F.files, f.name ∈ D.files.map AFile.name

/-- Post-run shape: every non-dated UUID folder with an indexed title is a
merge leftover. -/
def MigInv (idx : List ConvRec) (st : List Folder) : Prop :=
  ∀ F ∈ st, matchesDated F.name = false → matchesUuid F.name = true →
    titleOf idx F.name ≠ [] → LeftoverInv idx st F

/-- Every conversation record carries a title only together with a
parsable creation date. -/
def datedIdx (idx : List ConvRec) : Prop :=
  ∀ cid : Str, titleOf idx cid ≠ [] → datePrefixOf (dateOf idx cid) ≠ []

/-!
## Lemmas and claim theorems
-/

lemma stripEnd_cons (c : Char) (l : List Char) :
    stripEnd (c :: l) =
      match stripEnd l with
      | [] => if isSpace c then [] else [c]
      | r => c :: r := rfl

lemma mem_collapseAux {c : Char} : ∀ (b : Bool) (l : List Char),
    c ∈ collapseAux b l → c ∈ l ∨ c = ' ' := by
  intro b l
  induction l generalizing b with
  | nil => intro h; simp [collapseAux] at h
  | cons d rest ih =>
    intro h
    simp only [collapseAux] at h
    by_cases hd : isSpace d
    · simp [hd] at h
      by_cases hb : b
      · subst hb; simp at h
        rcases ih true h with h' | h'
        · exact Or.inl (List.mem_cons_of_mem _ h')
        · exact Or.inr h'
      · simp [hb] at h
        rcases h with h | h
        · exact Or.inr h
        · rcases ih true h with h' | h'
          · exact Or.inl (List.mem_cons_of_mem _ h')
          · exact Or.inr h'
    · simp [hd] at h
      rcases h with h | h
      · exact Or.inl (by simp [h])
      · rcases ih false h with h' | h'
        · exact Or.inl (List.mem_cons_of_mem _ h')
        · exact Or.inr h'

lemma headNotSpace_collapseAux_true : ∀ l : List Char,
    headNotSpace (collapseAux true l) = true := by
  intro l
  induction l with
  | nil => simp [collapseAux, headNotSpace]
  | cons c rest ih =>
    simp only [collapseAux]
    by_cases hc : isSpace c
    · simpa [hc] using ih
    · simp [hc, headNotSpace]

lemma canonWs_collapseAux : ∀ (l : List Char) (b : Bool),
    canonWs (collapseAux b l) := by
  intro l
  induction l with
  | nil => intro b; simp [collapseAux, canonWs]
  | cons c rest ih =>
    intro b
    simp only [collapseAux]
    by_cases hc : isSpace c
    · by_cases hb : b
      · simpa [hc, hb] using ih true
      · simp only [hc, hb, if_true, if_false]
        refine ⟨fun _ => ⟨rfl, headNotSpace_collapseAux_true rest⟩, ih true⟩
    · simp only [hc, if_false]
      exact ⟨fun h => absurd h (by simp [hc]), ih false⟩

lemma canonWs_tail {c : Char} {l : List Char} (h : canonWs (c :: l)) : canonWs l := h.2

lemma collapseAux_eq_self : ∀ l : List Char, canonWs l →
    collapseAux false l = l ∧ (headNotSpace l = true → collapseAux true l = l) := by
  intro l
  induction l with
  | nil => intro _; simp [collapseAux]
  | cons c rest ih =>
    intro h
    obtain ⟨hc, hrest⟩ := h
    by_cases hsp : isSpace c
    · obtain ⟨he, hh⟩ := hc hsp
      subst he
      have ihr := ih hrest
      constructor
      · simp only [collapseAux, hsp, if_true, Bool.false_eq_true, if_false]
        rw [ihr.2 hh]
      · intro hhead
        simp [headNotSpace, hsp] at hhead
    · have ihr := ih hrest
      constructor
      · simp [collapseAux, hsp, ihr.1]
      · intro _
        simp [collapseAux, hsp, ihr.1]

lemma canonWs_dropWhile {l : List Char} (h : canonWs l) :
    canonWs (l.dropWhile isSpace) := by
  induction l with
  | nil => simpa using h
  | cons c rest ih =>
    by_cases hc : isSpace c
    · rw [List.dropWhile_cons_of_pos hc]
      exact ih h.2
    · rwa [List.dropWhile_cons_of_neg hc]

lemma headNotSpace_dropWhile : ∀ l : List Char,
    headNotSpace (l.dropWhile isSpace) = true := by
  intro l
  induction l with
  | nil => simp [headNotSpace]
  | cons c rest ih =>
    by_cases hc : isSpace c
    · rw [List.dropWhile_cons_of_pos hc]; exact ih
    · rw [List.dropWhile_cons_of_neg hc]; simp [headNotSpace, hc]

lemma mem_stripEnd {c : Char} : ∀ l : List Char, c ∈ stripEnd l → c ∈ l := by
  intro l
  induction l with
  | nil => simp [stripEnd]
  | cons d rest ih =>
    intro h
    simp only [stripEnd] at h
    rcases he : stripEnd rest with _ | ⟨r, rs⟩
    · rw [he] at h
      by_cases hd : isSpace d
      · simp [hd] at h
      · simp [hd] at h; simp [h]
    · rw [he] at h
      rcases List.mem_cons.mp h with h | h
      · simp [h]
      · exact List.mem_cons_of_mem _ (ih (he ▸ h))

lemma canonWs_stripEnd : ∀ l : List Char, canonWs l → canonWs (stripEnd l) := by
  intro l
  induction l with
  | nil => intro h; simpa [stripEnd] using h
  | cons c rest ih =>
    intro h
    simp only [stripEnd]
    rcases he : stripEnd rest with _ | ⟨r, rs⟩
    · by_cases hc : isSpace c
      · simp [hc, canonWs]
      · simp [hc, canonWs, headNotSpace]
    · have hr := ih h.2
      rw [he] at hr
      refine ⟨fun hsp => ?_, hr⟩
      obtain ⟨he', hh⟩ := h.1 hsp
      refine ⟨he', ?_⟩
      have : r ∈ stripEnd rest := by rw [he]; exact List.mem_cons_self _ _
      have hrmem : r ∈ rest := mem_stripEnd rest this
      cases rest with
      | nil => simp at hrmem
      | cons d ds =>
        simp [headNotSpace] at hh
        -- head of stripEnd (d :: ds) is d when the result is nonempty
        have : r = d := by
          simp only [stripEnd] at he
          rcases he2 : stripEnd ds with _ | ⟨q, qs⟩
          · rw [he2] at he
            by_cases hd : isSpace d
            · simp [hd] at he
            · simp [hd] at he; exact he.1.symm
          · rw [he2] at he
            simp at he; exact he.1.symm
        rw [this]
        simp [headNotSpace, hh]

lemma lastNotSpace_stripEnd : ∀ l : List Char, lastNotSpace (stripEnd l) = true := by
  intro l
  induction l with
  | nil => simp [stripEnd, lastNotSpace]
  | cons c rest ih =>
    simp only [stripEnd]
    rcases he : stripEnd rest with _ | ⟨r, rs⟩
    · by_cases hc : isSpace c
      · simp [hc, lastNotSpace]
      · simp [hc, lastNotSpace, List.getLast?]
    · rw [he] at ih
      unfold lastNotSpace at ih ⊢
      rwa [List.getLast?_cons_cons]

lemma dropWhile_eq_self_of_headNotSpace {l : List Char}
    (h : headNotSpace l = true) : l.dropWhile isSpace = l := by
  cases l with
  | nil => simp
  | cons c rest =>
    simp [headNotSpace] at h
    rw [List.dropWhile_cons_of_neg (by simp [h])]

lemma stripEnd_eq_self_of_lastNotSpace : ∀ l : List Char,
    lastNotSpace l = true → stripEnd l = l := by
  intro l
  induction l with
  | nil => intro _; simp [stripEnd]
  | cons c rest ih =>
    intro h
    cases rest with
    | nil =>
      unfold lastNotSpace at h
      simp [List.getLast?] at h
      simp [stripEnd, h]
    | cons d ds =>
      unfold lastNotSpace at h
      rw [List.getLast?_cons_cons] at h
      have : stripEnd (d :: ds) = d :: ds := ih (by unfold lastNotSpace; exact h)
      rw [stripEnd_cons, this]

lemma mem_pyStrip {c : Char} {l : Str} (h : c ∈ pyStrip l) : c ∈ l := by
  unfold pyStrip at h
  have := mem_stripEnd _ h
  exact List.dropWhile_sublist (p := isSpace) (l := l) |>.mem this

lemma mem_sanitize {c : Char} {s : Str} (h : c ∈ sanitize s) :
    (∃ d ∈ s, c = if isForbidden d then '_' else d) ∨ c = ' ' := by
  unfold sanitize at h
  have h1 := mem_pyStrip h
  rcases mem_collapseAux false _ h1 with h2 | h2
  · rcases List.mem_map.mp h2 with ⟨d, hd, he⟩
    exact Or.inl ⟨d, hd, he.symm⟩
  · exact Or.inr h2

lemma isForbidden_space_char : isForbidden ' ' = false := by decide

lemma not_isForbidden_of_mem_sanitize {c : Char} {s : Str}
    (h : c ∈ sanitize s) : isForbidden c = false := by
  rcases mem_sanitize h with ⟨d, _, he⟩ | he
  · by_cases hd : isForbidden d
    · simp [hd] at he; rw [he]; decide
    · simp [hd] at he; rw [he]; simpa using hd
  · rw [he]; decide

lemma canonWs_sanitize (s : Str) : canonWs (sanitize s) := by
  unfold sanitize pyStrip
  exact canonWs_stripEnd _ (canonWs_dropWhile (canonWs_collapseAux _ false))

lemma headNotSpace_stripEnd {l : List Char} (h : headNotSpace l = true) :
    headNotSpace (stripEnd l) = true := by
  cases l with
  | nil => simp [stripEnd, headNotSpace]
  | cons c rest =>
    simp only [stripEnd]
    rcases he : stripEnd rest with _ | ⟨r, rs⟩
    · simp [headNotSpace] at h
      simp [h, headNotSpace]
    · simpa [headNotSpace] using h

lemma headNotSpace_sanitize (s : Str) : headNotSpace (sanitize s) = true := by
  unfold sanitize pyStrip
  exact headNotSpace_stripEnd (headNotSpace_dropWhile _)

lemma lastNotSpace_sanitize (s : Str) : lastNotSpace (sanitize s) = true := by
  unfold sanitize pyStrip
  exact lastNotSpace_stripEnd _

lemma map_forbidden_eq_self {l : Str}
    (h : ∀ c ∈ l, isForbidden c = false) :
    l.map (fun c => if isForbidden c then '_' else c) = l := by
  conv_rhs => rw [← List.map_id l]
  exact List.map_congr_left (fun c hc => by simp [h c hc])

theorem sanitize_idem (s : Str) : sanitize (sanitize s) = sanitize s := by
  have hforb : ∀ c ∈ sanitize s, isForbidden c = false :=
    fun c hc => not_isForbidden_of_mem_sanitize hc
  have hmap := map_forbidden_eq_self hforb
  have hcanon := canonWs_sanitize s
  have hcoll : collapseWs (sanitize s) = sanitize s :=
    (collapseAux_eq_self _ hcanon).1
  have hdrop : (sanitize s).dropWhile isSpace = sanitize s :=
    dropWhile_eq_self_of_headNotSpace (headNotSpace_sanitize s)
  have hstrip : stripEnd (sanitize s) = sanitize s :=
    stripEnd_eq_self_of_lastNotSpace _ (lastNotSpace_sanitize s)
  conv_lhs => rw [sanitize, hmap]
  rw [show collapseWs (sanitize s) = sanitize s from hcoll]
  rw [pyStrip, hdrop, hstrip]

/-- C7 counterexample: the character class of `sanitize`
(migrate-artifacts.py line 64) is pure ASCII, so the Unicode curly quotes
are not replaced — `sanitize` maps a string of curly quotes to itself and
its output can contain curly quotes, contradicting the claim's
curly-quote conjunct. -/
theorem c7_counterexample :
    sanitize (str "‘a’ “b”") = str "‘a’ “b”" ∧
    '‘' ∈ sanitize (str "‘a’ “b”") ∧ '”' ∈ sanitize (str "‘a’ “b”") := by
  refine ⟨by decide, by decide, by decide⟩

/-- C7 amended: for every input string, `sanitize s` contains no character of
the ASCII forbidden set `/ \ : * ? " < > | # ^ [ ] . '` (the Unicode
curly-quote variants are NOT in the class and may survive in the output), and
`sanitize` is idempotent: `sanitize (sanitize s) = sanitize s`. -/
theorem c7_sanitize_safe_and_idem (s : Str) :
    ((sanitize s).all (fun c => !isForbidden c) = true) ∧
    sanitize (sanitize s) = sanitize s := by
  constructor
  · rw [List.all_eq_true]
    intro c hc
    simp [not_isForbidden_of_mem_sanitize hc]
  · exact sanitize_idem s

lemma parseFMLines_skip_of_not_sentinel {pre : List Str} (rest : List Str)
    (h : fmSentinel ∉ pre) :
    parseFMLines (pre ++ rest) false = parseFMLines rest false := by
  induction pre with
  | nil => rfl
  | cons l ls ih =>
    have hl : l ≠ fmSentinel := fun he => h (by simp [he])
    simp only [List.cons_append, parseFMLines, if_neg hl]
    exact ih (fun hm => h (List.mem_cons_of_mem _ hm))

lemma parseFMLines_mid {mid : List Str} (post : List Str)
    (h : fmSentinel ∉ mid) :
    parseFMLines (mid ++ fmSentinel :: post) true = mid.filterMap matchKV := by
  induction mid with
  | nil => simp [parseFMLines]
  | cons l ls ih =>
    have hl : l ≠ fmSentinel := fun he => h (by simp [he])
    have ih' := ih (fun hm => h (List.mem_cons_of_mem _ hm))
    simp only [List.cons_append, parseFMLines, if_neg hl, if_pos trivial, List.filterMap_cons]
    cases hkv : matchKV l with
    | none => simpa [hkv] using ih'
    | some kv => simpa [hkv] using ih'

lemma parseFMLines_no_sentinel {lines : List Str} (h : fmSentinel ∉ lines) :
    parseFMLines lines false = [] := by
  induction lines with
  | nil => rfl
  | cons l ls ih =>
    have hl : l ≠ fmSentinel := fun he => h (by simp [he])
    simp only [parseFMLines, if_neg hl]
    exact ih (fun hm => h (List.mem_cons_of_mem _ hm))

/-- C10: the extractor returns exactly the mapping built from the lines
strictly between the first and second sentinel occurrences — each line
matching `^(\w+):\s*(.+)$` contributes its key/value pair, in order, and
the last-write-wins lookup reads the final pair for a duplicated key;
lines before the first sentinel and from the second sentinel onwards
contribute nothing; a sequence without a sentinel, and an unreadable
file, yield the empty mapping. -/
theorem c10_frontmatter_extractor (pre mid post : List Str)
    (h1 : fmSentinel ∉ pre) (h2 : fmSentinel ∉ mid) :
    parseFMCore (pre ++ fmSentinel :: (mid ++ fmSentinel :: post)) =
      mid.filterMap matchKV ∧
    (∀ lines : List Str, fmSentinel ∉ lines → parseFMCore lines = []) ∧
    parse_frontmatter none = [] ∧
    (∀ (fm : List (Str × Str)) (k v : Str), fmGet (fm ++ [(k, v)]) k = v) := by
  refine ⟨?_, ?_, rfl, ?_⟩
  · unfold parseFMCore
    rw [parseFMLines_skip_of_not_sentinel _ h1]
    simp only [parseFMLines, if_pos rfl]
    exact parseFMLines_mid post h2
  · intro lines h
    exact parseFMLines_no_sentinel h
  · intro fm k v
    unfold fmGet
    rw [List.filter_append]
    simp [List.getLast?_append]

/-- Witness for C10 at a concrete input. -/
theorem c10_frontmatter_extractor_witness :
    parseFMCore ([str "x"] ++ fmSentinel :: ([str "a: 1", str "a: 2"] ++ fmSentinel :: [str "b: 3"])) =
      [(str "a", str "1"), (str "a", str "2")] := by
  have h := c10_frontmatter_extractor [str "x"] [str "a: 1", str "a: 2"] [str "b: 3"]
    (by decide) (by decide)
  rw [h.1]
  decide

lemma sortStr_perm (l : List Str) : List.Perm (sortStr l) l := List.perm_insertionSort strLe l

/-- C1 counterexample: in the end-to-end scenario the migrated folder is
named `2024-01-01 - _My Conversation_` — `sanitize` is applied to the raw
`[My Conversation]` aliases value of the conversation record, replacing the
brackets with underscores — so no folder named `2024-01-01 - My
Conversation`, as the claim states, exists after migration. -/
theorem c1_counterexample :
    ((migrateMain argvPlain c1fs).fs.artifacts.getD []).map Folder.name
      = [str "2024-01-01 - _My Conversation_"] ∧
    str "2024-01-01 - _My Conversation_" ≠ str "2024-01-01 - My Conversation" := by
  constructor
  · decide
  · decide

/-- C1 amended: in the end-to-end scenario the folder is renamed to
`2024-01-01 - _My Conversation_` (the raw aliases value is sanitized, not
its first alias), the file is renamed to `2024-01-02 - My Title v2.md`,
and the link-fix run maps the old link path to
`AI/Attachments/claude/artifacts/2024-01-01 - _My Conversation_/2024-01-02 - My Title v2`
and replaces its occurrence in the conversation file. -/
theorem c1_amended_end_to_end :
    (migrateMain argvPlain c1fs).fs.artifacts =
      some [⟨str "2024-01-01 - _My Conversation_",
             [⟨str "2024-01-02 - My Title v2.md", some c1draft⟩]⟩] ∧
    buildLinkMap ((migrateMain argvPlain c1fs).fs.artifacts.getD []) =
      [(str "AI/Attachments/claude/artifacts/11111111-1111-1111-1111-111111111111/draft",
        str "AI/Attachments/claude/artifacts/2024-01-01 - _My Conversation_/2024-01-02 - My Title v2")] ∧
    (fixMain argvPlain (migrateMain argvPlain c1fs).fs).2.conversations =
      some [⟨str "conv.md", some c1convFixed⟩] := by
  refine ⟨by decide, by decide, by decide⟩

/-- C3 counterexample: both UUID folders resolve to target
`2024-03-03 - Proj`; after migration the file originally in the second
source folder (content `artFileFmB`) is not in the destination folder — it
stays behind in its source folder because the destination already holds an
entry of the same name from the first folder. -/
theorem c3_counterexample :
    (migrateMain argvPlain c3fs).fs.artifacts =
      some [⟨str "2024-03-03 - Proj", [⟨str "2024-05-05 - Report.md", some artFileFm⟩]⟩,
            ⟨uu2, [⟨str "2024-05-05 - Report.md", some artFileFmB⟩]⟩] ∧
    artFileFmB ≠ artFileFm := by
  refine ⟨by decide, by decide⟩

/-- C4: the per-file renaming step performs both renames to the same
computed name `2024-05-05 - Report.md` without checking for an existing
target — the second rename replaces the file produced by the first, and
afterwards the folder holds exactly one file with that name, carrying the
second file's content. -/
theorem c4_per_file_rename_collision :
    (migrateMain argvPlain c4fs).ops =
      [Op.fileRename uu1 (str "a.md") (str "2024-05-05 - Report.md"),
       Op.fileRename uu1 (str "b.md") (str "2024-05-05 - Report.md"),
       Op.folderRename uu1 (str "2024-03-03 - Proj")] ∧
    (migrateMain argvPlain c4fs).fs.artifacts =
      some [⟨str "2024-03-03 - Proj",
             [⟨str "2024-05-05 - Report.md", some artFileFmB⟩]⟩] ∧
    artFileFmB ≠ artFileFm := by
  refine ⟨by decide, by decide, by decide⟩

/-- C2 counterexample: running the Migrator twice on `c2fs` changes the
vault again on the second run — the second run renames folder `uu2` to
`Chat` — so the two runs do not agree and the second run performs a
folder rename. -/
theorem c2_counterexample :
    (migrateMain argvPlain (migrateMain argvPlain c2fs).fs).fs ≠ (migrateMain argvPlain c2fs).fs ∧
    (migrateMain argvPlain (migrateMain argvPlain c2fs).fs).ops = [Op.folderRename uu2 (str "Chat")] := by
  refine ⟨by decide, by decide⟩

/-- C5 counterexample: the index-building pass has no dated-prefix filter —
a UUID-named (non-migrated) folder is visited and contributes a mapping
entry, contradicting the claim that exactly the dated folders are
visited. -/
theorem c5_counterexample :
    buildLinkMap c5folders =
      [(str "AI/Attachments/claude/artifacts/11111111-1111-1111-1111-111111111111/bar",
        str "AI/Attachments/claude/artifacts/11111111-1111-1111-1111-111111111111/foo")] ∧
    matchesDated uu1 = false ∧ matchesUuid uu1 = true := by
  refine ⟨by decide, by decide, by decide⟩

lemma mem_dictInsert {m : List (Str × Str)} {k v : Str} :
    ∀ p ∈ dictInsert m k v, p ∈ m ∨ p = (k, v) := by
  intro p hp
  unfold dictInsert at hp
  by_cases h : m.any (fun q => q.1 = k)
  · rw [if_pos h] at hp
    rcases List.mem_map.mp hp with ⟨q, hq, he⟩
    by_cases hk : q.1 = k
    · right; rw [← he]; simp [hk]
    · left; rw [← he]; simpa [hk] using hq
  · rw [if_neg h] at hp
    rcases List.mem_append.mp hp with h' | h'
    · exact Or.inl h'
    · right; simpa using h'

lemma dictInsert_key_mono {m : List (Str × Str)} {k v k' : Str}
    (h : ∃ v', (k', v') ∈ m) : ∃ v', (k', v') ∈ dictInsert m k v := by
  obtain ⟨v', hv⟩ := h
  unfold dictInsert
  by_cases hany : m.any (fun q => q.1 = k)
  · rw [if_pos hany]
    by_cases hk : k' = k
    · exact ⟨v, List.mem_map.mpr ⟨(k', v'), hv, by simp [hk]⟩⟩
    · exact ⟨v', List.mem_map.mpr ⟨(k', v'), hv, by simp [Ne.symm hk, hk]⟩⟩
  · rw [if_neg hany]
    exact ⟨v', List.mem_append.mpr (Or.inl hv)⟩

lemma dictInsert_self_key (m : List (Str × Str)) (k v : Str) :
    ∃ v', (k, v') ∈ dictInsert m k v := by
  unfold dictInsert
  by_cases hany : m.any (fun q => q.1 = k)
  · rw [if_pos hany]
    rcases List.any_eq_true.mp hany with ⟨q, hq, hqk⟩
    simp only [decide_eq_true_eq] at hqk
    exact ⟨v, List.mem_map.mpr ⟨q, hq, by simp [hqk]⟩⟩
  · rw [if_neg hany]
    exact ⟨v, List.mem_append.mpr (Or.inr (by simp))⟩

lemma buildFolderMap_eq (folders : List Folder) (lm : List (Str × Str)) (n : Str) :
    buildFolderMap folders lm n =
      match folders.find? (fun F => F.name = n) with
      | none => lm
      | some F => F.files.foldl (fileFoldStep n) lm := by
  unfold buildFolderMap fileFoldStep
  rfl

lemma fileFold_sound (n : Str) :
    ∀ (files : List AFile) (lm : List (Str × Str)) (p : Str × Str),
      p ∈ files.foldl (fileFoldStep n) lm →
      p ∈ lm ∨ ∃ f ∈ files, linkEntryOf n f = some p := by
  intro files
  induction files with
  | nil => intro lm p hp; exact Or.inl hp
  | cons f fs ih =>
    intro lm p hp
    rw [List.foldl_cons] at hp
    rcases ih _ p hp with h | ⟨g, hg, he⟩
    · unfold fileFoldStep at h
      cases he : linkEntryOf n f with
      | none => rw [he] at h; exact Or.inl h
      | some q =>
        rw [he] at h
        rcases mem_dictInsert p h with h' | h'
        · exact Or.inl h'
        · right
          refine ⟨f, List.mem_cons_self _ _, ?_⟩
          rw [he, h']
    · exact Or.inr ⟨g, List.mem_cons_of_mem _ hg, he⟩

lemma fileFold_key_mono (n : Str) :
    ∀ (files : List AFile) (lm : List (Str × Str)) (k : Str),
      (∃ v, (k, v) ∈ lm) → ∃ v, (k, v) ∈ files.foldl (fileFoldStep n) lm := by
  intro files
  induction files with
  | nil => intro lm k h; exact h
  | cons f fs ih =>
    intro lm k h
    rw [List.foldl_cons]
    apply ih
    unfold fileFoldStep
    cases he : linkEntryOf n f with
    | none => exact h
    | some q => exact dictInsert_key_mono h

lemma fileFold_key_complete (n : Str) :
    ∀ (files : List AFile) (lm : List (Str × Str)) (f : AFile) (o w : Str),
      f ∈ files → linkEntryOf n f = some (o, w) →
      ∃ v, (o, v) ∈ files.foldl (fileFoldStep n) lm := by
  intro files
  induction files with
  | nil => intro lm f o w hf; simp at hf
  | cons g gs ih =>
    intro lm f o w hf he
    rw [List.foldl_cons]
    rcases List.mem_cons.mp hf with h | h
    · subst h
      apply fileFold_key_mono
      unfold fileFoldStep
      rw [he]
      exact dictInsert_self_key _ _ _
    · exact ih _ f o w h he

lemma buildLinkMapList_sound (folders : List Folder) :
    ∀ (ns : List Str) (lm : List (Str × Str)) (p : Str × Str),
      p ∈ buildLinkMapList folders ns lm →
      p ∈ lm ∨ ∃ F ∈ folders, ∃ f ∈ F.files, linkEntryOf F.name f = some p := by
  intro ns
  induction ns with
  | nil => intro lm p hp; exact Or.inl hp
  | cons n ns ih =>
    intro lm p hp
    unfold buildLinkMapList at hp
    rcases ih _ p hp with h | h
    · rw [buildFolderMap_eq] at h
      cases hf : folders.find? (fun F => F.name = n) with
      | none => rw [hf] at h; exact Or.inl h
      | some F =>
        rw [hf] at h
        rcases fileFold_sound n F.files lm p h with h' | ⟨f, hfmem, he⟩
        · exact Or.inl h'
        · right
          have hFmem : F ∈ folders := List.mem_of_find?_eq_some hf
          have hFn : F.name = n := by
            have := List.find?_some hf
            simpa using this
          exact ⟨F, hFmem, f, hfmem, by rw [hFn]; exact he⟩
    · exact Or.inr h

lemma buildLinkMapList_key_mono (folders : List Folder) :
    ∀ (ns : List Str) (lm : List (Str × Str)) (k : Str),
      (∃ v, (k, v) ∈ lm) → ∃ v, (k, v) ∈ buildLinkMapList folders ns lm := by
  intro ns
  induction ns with
  | nil => intro lm k h; exact h
  | cons n ns ih =>
    intro lm k h
    unfold buildLinkMapList
    apply ih
    rw [buildFolderMap_eq]
    cases hf : folders.find? (fun F => F.name = n) with
    | none => exact h
    | some F => exact fileFold_key_mono n F.files lm k h

lemma find?_of_nodup_names {folders : List Folder} {F : Folder}
    (hnd : (folders.map Folder.name).Nodup) (hF : F ∈ folders) :
    folders.find? (fun G => G.name = F.name) = some F := by
  induction folders with
  | nil => simp at hF
  | cons G Gs ih =>
    rcases List.mem_cons.mp hF with h | h
    · subst h
      rw [List.find?_cons_of_pos _ (by simp)]
    · have hGn : G.name ≠ F.name := by
        intro he
        have : F.name ∈ Gs.map Folder.name := List.mem_map.mpr ⟨F, h, rfl⟩
        rw [List.map_cons] at hnd
        exact (List.nodup_cons.mp hnd).1 (he ▸ this)
      rw [List.find?_cons_of_neg _ (by simpa using hGn)]
      exact ih (List.nodup_cons.mp (by rw [List.map_cons] at hnd; exact hnd)).2 h

lemma buildLinkMapList_key_complete (folders : List Folder)
    (hnd : (folders.map Folder.name).Nodup) :
    ∀ (ns : List Str) (lm : List (Str × Str)) (F : Folder) (f : AFile) (o w : Str),
      F ∈ folders → F.name ∈ ns → f ∈ F.files → linkEntryOf F.name f = some (o, w) →
      ∃ v, (o, v) ∈ buildLinkMapList folders ns lm := by
  intro ns
  induction ns with
  | nil => intro lm F f o w _ hn; simp at hn
  | cons n ns ih =>
    intro lm F f o w hF hn hf he
    unfold buildLinkMapList
    rcases List.mem_cons.mp hn with h | h
    · apply buildLinkMapList_key_mono
      rw [buildFolderMap_eq, ← h, find?_of_nodup_names hnd hF]
      exact fileFold_key_complete F.name F.files lm f o w hf he
    · exact ih _ F f o w hF h hf he

/-- C5 amended: the index-building pass visits every top-level artifacts
folder regardless of its name — every recorded pair originates from some
folder and file via `linkEntryOf` (which requires a `.md` name, non-empty
`conversation_id` and `aliases`, a non-empty second alias, and distinct
old/new links), and conversely every file satisfying those conditions gets
its old link recorded as a key. -/
theorem c5_amended_index_scope (folders : List Folder)
    (hnd : (folders.map Folder.name).Nodup) :
    (∀ p ∈ buildLinkMap folders, ∃ F ∈ folders, ∃ f ∈ F.files,
        linkEntryOf F.name f = some p) ∧
    (∀ F ∈ folders, ∀ f ∈ F.files, ∀ o w : Str,
        linkEntryOf F.name f = some (o, w) →
        ∃ v, (o, v) ∈ buildLinkMap folders) := by
  constructor
  · intro p hp
    rcases buildLinkMapList_sound folders _ _ p hp with h | h
    · simp at h
    · exact h
  · intro F hF f hf o w he
    apply buildLinkMapList_key_complete folders hnd _ _ F f o w hF _ hf he
    exact (sortStr_perm _).mem_iff.mpr (List.mem_map.mpr ⟨F, hF, rfl⟩)

/-- Witness for C5 amended at the concrete one-folder vault `c5folders`. -/
theorem c5_amended_index_scope_witness :
    (∀ p ∈ buildLinkMap c5folders, ∃ F ∈ c5folders, ∃ f ∈ F.files,
        linkEntryOf F.name f = some p) ∧
    (∀ F ∈ c5folders, ∀ f ∈ F.files, ∀ o w : Str,
        linkEntryOf F.name f = some (o, w) →
        ∃ v, (o, v) ∈ buildLinkMap c5folders) :=
  c5_amended_index_scope c5folders (by decide)

/-- C6 counterexample: the artifact-folder substitution pass performs no
`🎨 [[` → `![[` rewrite — after a full run the artifact document still
contains the legacy marker even though it contains `artifacts/`. -/
theorem c6_counterexample :
    (fixMain argvPlain c6fs).2.artifacts =
      some [⟨str "2024-01-01 - X", [⟨str "a.md", some c6art⟩]⟩] ∧
    containsSub c6art artifactsToken = true ∧
    containsSub c6art markerOld = true := by
  refine ⟨by decide, by decide, by decide⟩

lemma listReplaceFuel_of_not_contains {pat : Str} (rep : Str) :
    ∀ (fuel : Nat) (s : Str), containsSub s pat = false →
      listReplaceFuel fuel s pat rep = s := by
  intro fuel
  induction fuel with
  | zero => intro s _; rfl
  | succ n ih =>
    intro s h
    cases s with
    | nil => rfl
    | cons c rest =>
      unfold containsSub at h
      rw [Bool.or_eq_false_iff] at h
      have hnp : pat.isPrefixOf (c :: rest) = false := h.1
      have hcond : ¬(pat ≠ [] ∧ pat.isPrefixOf (c :: rest) = true) := by
        intro hcond
        rw [hcond.2] at hnp
        cases hnp
      simp only [listReplaceFuel]
      rw [if_neg hcond, ih rest h.2]

lemma listReplace_of_not_contains {s pat : Str} (rep : Str)
    (h : containsSub s pat = false) : listReplace s pat rep = s :=
  listReplaceFuel_of_not_contains rep s.length s h

/-- C6 amended: for a readable `.md` document, both substitution passes
skip it byte-identically when it lacks `artifacts/`; when it contains
`artifacts/`, the conversation pass rewrites it to the link-map
substitution followed by the `🎨 [[` → `![[` marker rewrite, while the
artifact-folder pass applies only the link-map substitution (no marker
rewrite); and a non-dry full run applies exactly these per-file functions
to the conversations area and to every artifact folder. -/
theorem c6_amended_marker_passes (lm : List (Str × Str)) (f : AFile) (c : Str)
    (hmd : isMd f.name = true) (hc : f.content = some c) :
    (containsSub c artifactsToken = false →
      fixConvFile lm false f = f ∧ fixArtFile lm false f = f) ∧
    (containsSub c artifactsToken = true →
      (fixConvFile lm false f).content =
        some (listReplace (applyLinkMap lm c) markerOld markerNew) ∧
      (fixArtFile lm false f).content = some (applyLinkMap lm c)) ∧
    (∀ (argv : List Str) (fs : FS) (folders : List Folder),
      fs.artifacts = some folders → 2 ≤ argv.length → dryFlag ∉ argv →
      (fixMain argv fs).2.conversations =
        fs.conversations.map (fun l => l.map (fixConvFile (buildLinkMap folders) false)) ∧
      (fixMain argv fs).2.artifacts =
        some (folders.map (fun F =>
          ⟨F.name, F.files.map (fixArtFile (buildLinkMap folders) false)⟩))) := by
  refine ⟨?_, ?_, ?_⟩
  · intro hna
    unfold fixConvFile fixArtFile
    rw [hc]
    simp [hmd, hna]
  · intro ha
    refine ⟨?_, ?_⟩
    · unfold fixConvFile
      rw [hc]
      by_cases hm : containsSub (applyLinkMap lm c) markerOld = true
      · by_cases hne : listReplace (applyLinkMap lm c) markerOld markerNew = c
        · simp [hmd, ha, hm, hne, hc]
        · simp [hmd, ha, hm, hne, hc]
      · rw [Bool.not_eq_true] at hm
        have hrw := listReplace_of_not_contains (s := applyLinkMap lm c) markerNew hm
        by_cases hne : applyLinkMap lm c = c
        · have hm2 : containsSub c markerOld = false := hne ▸ hm
          have hrw2 : listReplace c markerOld markerNew = c := by
            have := hrw
            rw [hne] at this
            exact this
          simp [hmd, ha, hm2, hne, hrw2, hc]
        · simp [hmd, ha, hm, hne, hrw, hc]
    · unfold fixArtFile
      rw [hc]
      by_cases hne : applyLinkMap lm c = c
      · simp [hmd, ha, hne, hc]
      · simp [hmd, ha, hne, hc]
  · intro argv fs folders hfa hlen hdry
    unfold fixMain
    rw [if_neg (by omega)]
    rcases fs with ⟨arts, convs⟩
    simp only at hfa
    rw [hfa]
    simp only
    rw [decide_eq_false hdry]
    exact ⟨rfl, rfl⟩

/-- Witness for C6 amended: a concrete document containing `artifacts/`
and the legacy marker, under the empty link map; the final conjunct
evaluates the conversation pass on it. -/
theorem c6_amended_marker_passes_witness :
    ((containsSub (str "artifacts/ 🎨 [[y]]") artifactsToken = false →
      fixConvFile [] false ⟨str "a.md", some (str "artifacts/ 🎨 [[y]]")⟩ =
        ⟨str "a.md", some (str "artifacts/ 🎨 [[y]]")⟩ ∧
      fixArtFile [] false ⟨str "a.md", some (str "artifacts/ 🎨 [[y]]")⟩ =
        ⟨str "a.md", some (str "artifacts/ 🎨 [[y]]")⟩) ∧
    (containsSub (str "artifacts/ 🎨 [[y]]") artifactsToken = true →
      (fixConvFile [] false ⟨str "a.md", some (str "artifacts/ 🎨 [[y]]")⟩).content =
        some (listReplace (applyLinkMap [] (str "artifacts/ 🎨 [[y]]")) markerOld markerNew) ∧
      (fixArtFile [] false ⟨str "a.md", some (str "artifacts/ 🎨 [[y]]")⟩).content =
        some (applyLinkMap [] (str "artifacts/ 🎨 [[y]]"))) ∧
    (∀ (argv : List Str) (fs : FS) (folders : List Folder),
      fs.artifacts = some folders → 2 ≤ argv.length → dryFlag ∉ argv →
      (fixMain argv fs).2.conversations =
        fs.conversations.map (fun l => l.map (fixConvFile (buildLinkMap folders) false)) ∧
      (fixMain argv fs).2.artifacts =
        some (folders.map (fun F =>
          ⟨F.name, F.files.map (fixArtFile (buildLinkMap folders) false)⟩)))) ∧
    (fixConvFile [] false ⟨str "a.md", some (str "artifacts/ 🎨 [[y]]")⟩).content =
      some (str "artifacts/ ![[y]]") := by
  constructor
  · exact c6_amended_marker_passes [] ⟨str "a.md", some (str "artifacts/ 🎨 [[y]]")⟩
      (str "artifacts/ 🎨 [[y]]") (by decide) rfl
  · decide

/-!
## C8: dry-run performs no mutation; C9: exit codes
-/

lemma fixConvFile_dry (lm : List (Str × Str)) (f : AFile) :
    fixConvFile lm true f = f := by
  unfold fixConvFile
  by_cases h1 : isMd f.name
  · simp only [h1]
    cases f.content with
    | none => simp
    | some c =>
      simp only
      by_cases h2 : containsSub c artifactsToken
      · simp [h2]
      · simp [h2]
  · simp [h1]

lemma fixArtFile_dry (lm : List (Str × Str)) (f : AFile) :
    fixArtFile lm true f = f := by
  unfold fixArtFile
  by_cases h1 : isMd f.name
  · simp only [h1]
    cases f.content with
    | none => simp
    | some c =>
      simp only
      by_cases h2 : containsSub c artifactsToken
      · simp [h2]
      · simp [h2]
  · simp [h1]

lemma migFileStep_dry (fn : Str) (files : List AFile) (n : Str) :
    migFileStep true fn files n = (files, []) := by
  unfold migFileStep
  repeat' split
  all_goals simp_all

lemma migFilesLoop_dry (fn : Str) (files : List AFile) :
    ∀ ns : List Str, migFilesLoop true fn files ns = (files, []) := by
  intro ns
  induction ns generalizing files with
  | nil => rfl
  | cons n ns ih =>
    unfold migFilesLoop
    rw [migFileStep_dry]
    simp only
    rw [ih files]
    rfl

lemma folder_eta (F : Folder) : (⟨F.name, F.files⟩ : Folder) = F := rfl

lemma updFiles_self {st : List Folder} {entry : Str} {F : Folder}
    (hnd : (st.map Folder.name).Nodup)
    (hF : F ∈ st) (hname : F.name = entry) :
    updFiles st entry F.files = st := by
  unfold updFiles
  conv_rhs => rw [← List.map_id st]
  apply List.map_congr_left
  intro G hG
  by_cases h : G.name = entry
  · have : G = F :=
      List.inj_on_of_nodup_map hnd hG hF (h.trans hname.symm)
    rw [if_pos h, this]
    exact folder_eta F
  · rw [if_neg h]
    rfl

lemma find?_name_facts {st : List Folder} {entry : Str} {F : Folder}
    (h : st.find? (fun G => G.name = entry) = some F) :
    F ∈ st ∧ F.name = entry := by
  refine ⟨List.mem_of_find?_eq_some h, ?_⟩
  have := List.find?_some h
  simpa using this

lemma migStep_dry {idx : List ConvRec} {st : List Folder} {entry : Str}
    (hnd : (st.map Folder.name).Nodup) :
    migStep idx true st entry = (st, []) := by
  unfold migStep
  cases hf : st.find? (fun F => F.name = entry) with
  | none => rfl
  | some F =>
    obtain ⟨hFmem, hFname⟩ := find?_name_facts hf
    simp only []
    by_cases h1 : matchesDated entry = true
    · rw [if_pos h1]
    · rw [if_neg h1]
      by_cases h2 : matchesUuid entry = true
      · rw [if_neg (by simpa using h2)]
        by_cases h3 : titleOf idx entry = []
        · rw [if_pos h3]
        · rw [if_neg h3]
          simp only [migFilesLoop_dry]
          rw [updFiles_self hnd hFmem hFname]
          by_cases h4 : entry = targetName idx entry
          · rw [if_pos h4]
          · rw [if_neg h4, if_pos trivial]
      · rw [if_pos (by simpa using h2)]

lemma migrateList_dry {idx : List ConvRec} :
    ∀ (ns : List Str) (st : List Folder),
      (st.map Folder.name).Nodup →
      migrateList idx true st ns = (st, []) := by
  intro ns
  induction ns with
  | nil => intro st _; rfl
  | cons n ns ih =>
    intro st hnd
    unfold migrateList
    rw [migStep_dry hnd]
    simp only
    rw [ih st hnd]
    rfl

/-- C8: with `--dry-run` anywhere in the argument list, neither tool
mutates the vault — the resulting filesystem state is the input state and
the migrator performs zero operations (stated for well-formed states,
whose folder names are distinct as on a real filesystem). -/
theorem c8_dry_run_frame (argv : List Str) (fs : FS)
    (hdry : dryFlag ∈ argv)
    (hwf : ∀ l, fs.artifacts = some l → (l.map Folder.name).Nodup) :
    (migrateMain argv fs).fs = fs ∧ (migrateMain argv fs).ops = [] ∧
    (fixMain argv fs).2 = fs := by
  have hdec : decide (dryFlag ∈ argv) = true := decide_eq_true hdry
  obtain ⟨arts, convs⟩ := fs
  by_cases hlen : argv.length < 2
  · unfold migrateMain fixMain
    rw [if_pos hlen, if_pos hlen]
    exact ⟨rfl, rfl, rfl⟩
  · cases arts with
    | none =>
      unfold migrateMain fixMain
      rw [if_neg hlen, if_neg hlen]
      exact ⟨rfl, rfl, rfl⟩
    | some folders =>
      have hnd := hwf folders rfl
      have hart : FS.artifacts ⟨some folders, convs⟩ = some folders := rfl
      have hmap : folders.map
          (fun F => (⟨F.name, F.files.map (fixArtFile (buildLinkMap folders) true)⟩ : Folder))
          = folders := by
        conv_rhs => rw [← List.map_id folders]
        apply List.map_congr_left
        intro F _
        have hfiles : F.files.map (fixArtFile (buildLinkMap folders) true) = F.files := by
          conv_rhs => rw [← List.map_id F.files]
          apply List.map_congr_left
          intro f _
          exact fixArtFile_dry _ f
        rw [hfiles]
        rfl
      have hconvs : convs.map (fun l => l.map (fixConvFile (buildLinkMap folders) true)) = convs := by
        cases convs with
        | none => rfl
        | some l =>
          show some (l.map (fixConvFile (buildLinkMap folders) true)) = some l
          congr 1
          conv_rhs => rw [← List.map_id l]
          apply List.map_congr_left
          intro f _
          exact fixConvFile_dry _ f
      unfold migrateMain fixMain
      rw [if_neg hlen, if_neg hlen]
      simp only [hdec]
      unfold migrateRun
      rw [migrateList_dry _ _ hnd]
      refine ⟨rfl, rfl, ?_⟩
      rw [hmap, hconvs]

/-- Witness for C8 at a concrete dry-run invocation on the scenario
vault. -/
theorem c8_dry_run_frame_witness :
    (migrateMain [str "tool.py", str "/vault", dryFlag] c1fs).fs = c1fs ∧
    (migrateMain [str "tool.py", str "/vault", dryFlag] c1fs).ops = [] ∧
    (fixMain [str "tool.py", str "/vault", dryFlag] c1fs).2 = c1fs :=
  c8_dry_run_frame [str "tool.py", str "/vault", dryFlag] c1fs (by decide)
    (by intro l hl; cases hl; decide)

/-- C9: each tool exits with status 1 exactly when the vault argument is
missing or the artifacts directory is absent (for `fix-artifact-links` the
directory-listing failure terminates the process with status 1), and in
that case nothing is touched; otherwise the exit status is 0. -/
theorem c9_exit_codes (argv : List Str) (fs : FS) :
    ((migrateMain argv fs).code = if argv.length < 2 ∨ fs.artifacts = none then 1 else 0) ∧
    ((fixMain argv fs).1 = if argv.length < 2 ∨ fs.artifacts = none then 1 else 0) ∧
    (argv.length < 2 ∨ fs.artifacts = none →
      (migrateMain argv fs).fs = fs ∧ (fixMain argv fs).2 = fs) := by
  obtain ⟨arts, convs⟩ := fs
  by_cases hlen : argv.length < 2
  · refine ⟨?_, ?_, fun _ => ⟨?_, ?_⟩⟩ <;> simp [migrateMain, fixMain, hlen]
  · cases arts with
    | none =>
      refine ⟨?_, ?_, fun _ => ⟨?_, ?_⟩⟩ <;> simp [migrateMain, fixMain, hlen]
    | some folders =>
      refine ⟨?_, ?_, ?_⟩
      · simp [migrateMain, hlen]
      · simp [fixMain, hlen]
      · intro h
        rcases h with h | h
        · exact absurd h hlen
        · simp at h

/-- Witness for C9 at concrete invocations: missing argument, missing
artifacts directory, and a successful run. -/
theorem c9_exit_codes_witness :
    (migrateMain [str "tool.py"] c1fs).code = 1 ∧
    (fixMain [str "tool.py"] c1fs).1 = 1 ∧
    (migrateMain [str "tool.py"] c1fs).fs = c1fs ∧
    (migrateMain argvPlain ⟨none, some []⟩).code = 1 ∧
    (fixMain argvPlain ⟨none, some []⟩).2 = ⟨none, some []⟩ ∧
    (migrateMain argvPlain c1fs).code = 0 ∧
    (fixMain argvPlain c1fs).1 = 0 := by
  have h1 := c9_exit_codes [str "tool.py"] c1fs
  have h2 := c9_exit_codes argvPlain ⟨none, some []⟩
  have h3 := c9_exit_codes argvPlain c1fs
  refine ⟨?_, ?_, ?_, ?_, ?_, ?_, ?_⟩
  · rw [h1.1]; decide
  · rw [h1.2.1]; decide
  · exact (h1.2.2 (by decide)).1
  · rw [h2.1]; decide
  · exact (h2.2.2 (by decide)).2
  · rw [h3.1]; decide
  · rw [h3.2.1]; decide

/-!
## C3 amended: merge without overwrite
-/

lemma mergeInto_eq (srcName dstName : Str) :
    ∀ (src dst : List AFile), (src.map AFile.name).Nodup →
      (mergeInto srcName dstName src dst).1 =
        src.filter (fun f => f.name ∈ dst.map AFile.name) ∧
      (mergeInto srcName dstName src dst).2.1 =
        dst ++ src.filter (fun f => ¬ f.name ∈ dst.map AFile.name) := by
  intro src
  induction src with
  | nil =>
    intro dst _
    exact ⟨rfl, by simp [mergeInto]⟩
  | cons f rest ih =>
    intro dst hnd
    rw [List.map_cons, List.nodup_cons] at hnd
    obtain ⟨hf, hrest⟩ := hnd
    by_cases hmem : f.name ∈ dst.map AFile.name
    · have hany : dst.any (fun g => g.name = f.name) = true := by
        rw [List.any_eq_true]
        rcases List.mem_map.mp hmem with ⟨g, hg, he⟩
        exact ⟨g, hg, by simp [he]⟩
      have ihd := ih dst hrest
      constructor
      · show (mergeInto srcName dstName (f :: rest) dst).1 = _
        unfold mergeInto
        rw [if_pos hany]
        simp only
        rw [ihd.1, List.filter_cons, if_pos (by simpa using hmem)]
      · show (mergeInto srcName dstName (f :: rest) dst).2.1 = _
        unfold mergeInto
        rw [if_pos hany]
        simp only
        rw [ihd.2, List.filter_cons, if_neg (by simpa using hmem)]
    · have hany : dst.any (fun g => g.name = f.name) = false := by
        rw [List.any_eq_false]
        intro g hg
        simp only [decide_eq_true_eq]
        intro he
        exact hmem (List.mem_map.mpr ⟨g, hg, he⟩)
      have hcong1 : rest.filter (fun g => g.name ∈ (dst ++ [f]).map AFile.name) =
          rest.filter (fun g => g.name ∈ dst.map AFile.name) := by
        apply List.filter_congr
        intro g hg
        have hne : g.name ≠ f.name := by
          intro he
          exact hf (he ▸ List.mem_map.mpr ⟨g, hg, rfl⟩)
        simp [List.mem_append, hne]
      have hcong2 : rest.filter (fun g => ¬ g.name ∈ (dst ++ [f]).map AFile.name) =
          rest.filter (fun g => ¬ g.name ∈ dst.map AFile.name) := by
        apply List.filter_congr
        intro g hg
        have hne : g.name ≠ f.name := by
          intro he
          exact hf (he ▸ List.mem_map.mpr ⟨g, hg, rfl⟩)
        simp [List.mem_append, hne]
      have ihd := ih (dst ++ [f]) hrest
      constructor
      · show (mergeInto srcName dstName (f :: rest) dst).1 = _
        unfold mergeInto
        rw [if_neg (by simp [hany])]
        simp only
        rw [ihd.1, hcong1, List.filter_cons, if_neg (by simpa using hmem)]
      · show (mergeInto srcName dstName (f :: rest) dst).2.1 = _
        unfold mergeInto
        rw [if_neg (by simp [hany])]
        simp only
        rw [ihd.2, hcong2, List.filter_cons, if_pos (by simpa using hmem)]
        simp

/-- C3 amended: when two folders merge, no existing destination entry is
ever overwritten (the old destination contents are an unchanged prefix of
the new), every name present in a source entry appears in the destination
afterwards and — for well-formed folders — exactly once; entries whose
names collide are not moved but remain in the source folder (so a file of
the second source folder need not reach the destination itself), and the
source folder becomes removable exactly when every entry collided with
nothing, i.e. all were moved. -/
theorem c3_amended_merge_no_overwrite (srcName dstName : Str) (src dst : List AFile)
    (hsrc : (src.map AFile.name).Nodup) (hdst : (dst.map AFile.name).Nodup) :
    ((mergeInto srcName dstName src dst).2.1.take dst.length = dst) ∧
    (∀ f ∈ src, f.name ∈ (mergeInto srcName dstName src dst).2.1.map AFile.name) ∧
    (((mergeInto srcName dstName src dst).2.1.map AFile.name).Nodup) ∧
    ((mergeInto srcName dstName src dst).1 =
      src.filter (fun f => f.name ∈ dst.map AFile.name)) ∧
    ((mergeInto srcName dstName src dst).2.1 =
      dst ++ src.filter (fun f => ¬ f.name ∈ dst.map AFile.name)) ∧
    ((mergeInto srcName dstName src dst).1 = [] ↔
      ∀ f ∈ src, ¬ f.name ∈ dst.map AFile.name) := by
  obtain ⟨hlft, hdst'⟩ := mergeInto_eq srcName dstName src dst hsrc
  refine ⟨?_, ?_, ?_, hlft, hdst', ?_⟩
  · rw [hdst', List.take_left]
  · intro f hfmem
    rw [hdst', List.map_append, List.mem_append]
    by_cases h : f.name ∈ dst.map AFile.name
    · exact Or.inl h
    · right
      exact List.mem_map.mpr ⟨f, List.mem_filter.mpr ⟨hfmem, by simpa using h⟩, rfl⟩
  · rw [hdst', List.map_append]
    rw [List.nodup_append]
    refine ⟨hdst, ?_, ?_⟩
    · exact ((List.filter_sublist src).map AFile.name).nodup hsrc
    · intro x hx1 hx2
      rcases List.mem_map.mp hx2 with ⟨g, hg, he⟩
      have h2 := (List.mem_filter.mp hg).2
      rw [decide_eq_true_iff] at h2
      rw [he] at h2
      exact h2 hx1
  · rw [hlft, List.filter_eq_nil_iff]
    constructor
    · intro h f hfmem hmem
      exact h f hfmem (by simpa using hmem)
    · intro h f hfmem
      simpa using h f hfmem

/-- Witness for C3 amended at concrete folders: the source holds one
colliding and one fresh entry. -/
theorem c3_amended_merge_no_overwrite_witness :
    ((mergeInto uu1 uu2 [⟨str "x.md", some (str "s")⟩, ⟨str "y.md", some (str "t")⟩]
        [⟨str "x.md", some (str "d")⟩]).2.1.take 1 = [⟨str "x.md", some (str "d")⟩]) ∧
    ((mergeInto uu1 uu2 [⟨str "x.md", some (str "s")⟩, ⟨str "y.md", some (str "t")⟩]
        [⟨str "x.md", some (str "d")⟩]).1 = [⟨str "x.md", some (str "s")⟩]) := by
  have h := c3_amended_merge_no_overwrite uu1 uu2
    [⟨str "x.md", some (str "s")⟩, ⟨str "y.md", some (str "t")⟩]
    [⟨str "x.md", some (str "d")⟩] (by decide) (by decide)
  refine ⟨?_, ?_⟩
  · have := h.1
    simpa using this
  · rw [h.2.2.2.1]
    decide

lemma datedIdx_of_entries {idx : List ConvRec}
    (h : ∀ r ∈ idx, datePrefixOf r.ctime ≠ []) : datedIdx idx := by
  intro cid ht
  unfold titleOf dateOf lastFor at *
  cases hl : (idx.filter (fun r => r.cid = cid)).getLast? with
  | none => rw [hl] at ht; exact absurd rfl ht
  | some r =>
    have hmem0 : r ∈ (idx.filter (fun r => r.cid = cid)).getLast? := Option.mem_def.mpr hl
    obtain ⟨hne, heq⟩ := List.mem_getLast?_eq_getLast hmem0
    have hmem : r ∈ idx.filter (fun r => r.cid = cid) := heq ▸ List.getLast_mem hne
    exact h r (List.mem_filter.mp hmem).1

lemma datePrefix_shape (s : Str) :
    datePrefixOf s = [] ∨
    ∃ y1 y2 y3 y4 m1 m2 d1 d2 : Char,
      datePrefixOf s = [y1, y2, y3, y4, '-', m1, m2, '-', d1, d2] ∧
      y1.isDigit = true ∧ y2.isDigit = true ∧ y3.isDigit = true ∧ y4.isDigit = true ∧
      m1.isDigit = true ∧ m2.isDigit = true ∧ d1.isDigit = true ∧ d2.isDigit = true := by
  unfold datePrefixOf
  split
  · split_ifs with h
    · right
      obtain ⟨hy1, hy2, hy3, hy4, hh1, hm1, hm2, hh2, hd1, hd2, ht⟩ := h
      exact ⟨_, _, _, _, _, _, _, _, rfl, hy1, hy2, hy3, hy4, hm1, hm2, hd1, hd2⟩
    · left; rfl
  · left; rfl

lemma matchesDated_of_datePrefix {d : Str} (h : datePrefixOf d ≠ []) (t : Str) :
    matchesDated (datePrefixOf d ++ str " - " ++ t) = true := by
  rcases datePrefix_shape d with hsh | ⟨y1, y2, y3, y4, m1, m2, d1, d2, he, h1, h2, h3, h4, h5, h6, h7, h8⟩
  · exact absurd hsh h
  · rw [he]
    exact decide_eq_true ⟨h1, h2, h3, h4, rfl, h5, h6, rfl, h7, h8, rfl, rfl, rfl⟩

lemma matchesDated_targetName {idx : List ConvRec} {cid : Str}
    (hdx : datedIdx idx) (ht : titleOf idx cid ≠ []) :
    matchesDated (targetName idx cid) = true := by
  have hd := hdx cid ht
  unfold targetName
  rw [if_neg hd]
  exact matchesDated_of_datePrefix hd _

lemma updFiles_map_name (st : List Folder) (nm : Str) (fl : List AFile) :
    (updFiles st nm fl).map Folder.name = st.map Folder.name := by
  unfold updFiles
  rw [List.map_map]
  apply List.map_congr_left
  intro G _
  by_cases h : G.name = nm
  · simp [h]
  · simp [h]

lemma mem_updFiles {st : List Folder} {nm : Str} {fl : List AFile} {G' : Folder} :
    G' ∈ updFiles st nm fl ↔
      ∃ G ∈ st, G' = if G.name = nm then ⟨G.name, fl⟩ else G := by
  unfold updFiles
  rw [List.mem_map]
  constructor
  · rintro ⟨G, hG, he⟩; exact ⟨G, hG, he.symm⟩
  · rintro ⟨G, hG, he⟩; exact ⟨G, hG, he.symm⟩

lemma mem_updFiles_of_ne {st : List Folder} {nm : Str} {fl : List AFile} {G : Folder}
    (hG : G ∈ st) (hne : G.name ≠ nm) : G ∈ updFiles st nm fl :=
  mem_updFiles.mpr ⟨G, hG, by rw [if_neg hne]⟩

lemma wfFolders_updFiles {st : List Folder} {nm : Str} {fl : List AFile}
    (hwf : wfFolders st) (hfl : (fl.map AFile.name).Nodup) :
    wfFolders (updFiles st nm fl) := by
  refine ⟨by rw [updFiles_map_name]; exact hwf.1, ?_⟩
  intro G' hG'
  rcases mem_updFiles.mp hG' with ⟨G, hG, he⟩
  by_cases h : G.name = nm
  · rw [he, if_pos h]; exact hfl
  · rw [he, if_neg h]; exact hwf.2 G hG

lemma renameFile_eq {files : List AFile} {old new : Str} {f₀ : AFile}
    (hf : files.find? (fun f => f.name = old) = some f₀) :
    renameFile files old new =
      (files.filter (fun g => g.name ≠ old ∧ g.name ≠ new)) ++ [⟨new, f₀.content⟩] := by
  unfold renameFile
  rw [hf]

lemma find?_file_facts {files : List AFile} {n : Str} {f₀ : AFile}
    (h : files.find? (fun f => f.name = n) = some f₀) :
    f₀ ∈ files ∧ f₀.name = n := by
  refine ⟨List.mem_of_find?_eq_some h, ?_⟩
  have := List.find?_some h
  simpa using this

lemma artNameOf_content (m : Str) (c : Option Str) :
    artNameOf (AFile.mk m c).content = artNameOf c := rfl

lemma migFilesLoop_stable (fn : Str) :
    ∀ (ns : List Str) (files : List AFile),
      (files.map AFile.name).Nodup →
      (∀ f ∈ files, f.name ∈ ns ∨ stableFile f) →
      (∀ f ∈ (migFilesLoop false fn files ns).1, stableFile f) ∧
      ((migFilesLoop false fn files ns).1.map AFile.name).Nodup := by
  intro ns
  induction ns with
  | nil =>
    intro files hnd hpre
    refine ⟨?_, hnd⟩
    intro f hf
    rcases hpre f hf with h | h
    · simp at h
    · exact h
  | cons n ns ih =>
    intro files hnd hpre
    show (∀ f ∈ (migFilesLoop false fn files (n :: ns)).1, stableFile f) ∧ _
    unfold migFilesLoop
    by_cases hmd : isMd n = true
    · cases hfind : files.find? (fun f => f.name = n) with
      | none =>
        have hstep : migFileStep false fn files n = (files, []) := by
          simp [migFileStep, hmd, hfind]
        rw [hstep]
        apply ih files hnd
        intro f hf
        rcases hpre f hf with h | h
        · rcases List.mem_cons.mp h with h' | h'
          · exfalso
            have := List.find?_eq_none.mp hfind f hf
            simp [h'] at this
          · exact Or.inl h'
        · exact Or.inr h
      | some f₀ =>
        obtain ⟨hf₀mem, hf₀name⟩ := find?_file_facts hfind
        cases hart : artNameOf f₀.content with
        | none =>
          have hstep : migFileStep false fn files n = (files, []) := by
            simp [migFileStep, hmd, hfind, hart]
          rw [hstep]
          apply ih files hnd
          intro f hf
          rcases hpre f hf with h | h
          · rcases List.mem_cons.mp h with h' | h'
            · have : f = f₀ :=
                List.inj_on_of_nodup_map hnd hf hf₀mem (h'.trans hf₀name.symm)
              right
              intro _
              rw [this, hart]
              exact Or.inl rfl
            · exact Or.inl h'
          · exact Or.inr h
        | some m =>
          by_cases hnm : n = m
          · subst hnm
            have hstep : migFileStep false fn files n = (files, []) := by
              simp [migFileStep, hmd, hfind, hart]
            rw [hstep]
            apply ih files hnd
            intro f hf
            rcases hpre f hf with h | h
            · rcases List.mem_cons.mp h with h' | h'
              · have hffo : f = f₀ :=
                  List.inj_on_of_nodup_map hnd hf hf₀mem (h'.trans hf₀name.symm)
                right
                intro _
                rw [hffo, hart, hf₀name]
                exact Or.inr rfl
              · exact Or.inl h'
            · exact Or.inr h
          · have hstep : migFileStep false fn files n =
                (renameFile files n m, [Op.fileRename fn n m]) := by
              simp [migFileStep, hmd, hfind, hart, hnm]
            rw [hstep]
            simp only
            rw [renameFile_eq hfind]
            apply ih
            · rw [List.map_append, List.nodup_append]
              refine ⟨((List.filter_sublist files).map AFile.name).nodup hnd, by simp, ?_⟩
              intro x hx hx2
              simp only [List.map_cons, List.map_nil, List.mem_singleton] at hx2
              rcases List.mem_map.mp hx with ⟨g, hg, he⟩
              have hcond := (List.mem_filter.mp hg).2
              rw [decide_eq_true_iff] at hcond
              rw [he] at hcond
              exact hcond.2 hx2
            intro f hf
            rcases List.mem_append.mp hf with h | h
            · have hgmem := (List.mem_filter.mp h).1
              have hcond := (List.mem_filter.mp h).2
              rw [decide_eq_true_iff] at hcond
              rcases hpre f hgmem with h' | h'
              · rcases List.mem_cons.mp h' with h'' | h''
                · exact absurd h'' hcond.1
                · exact Or.inl h''
              · exact Or.inr h'
            · simp only [List.mem_singleton] at h
              right
              intro _
              rw [h]
              rw [artNameOf_content, hart]
              exact Or.inr rfl
    · have hstep : migFileStep false fn files n = (files, []) := by
        simp [migFileStep, hmd]
      rw [hstep]
      apply ih files hnd
      intro f hf
      rcases hpre f hf with h | h
      · rcases List.mem_cons.mp h with h' | h'
        · right
          intro hismd
          rw [h'] at hismd
          exact absurd hismd (by simpa using hmd)
        · exact Or.inl h'
      · exact Or.inr h

lemma migFilesLoop_stable_noop (fn : Str) :
    ∀ (ns : List Str) (files : List AFile),
      (files.map AFile.name).Nodup →
      (∀ f ∈ files, stableFile f) →
      migFilesLoop false fn files ns = (files, []) := by
  intro ns
  induction ns with
  | nil => intro files _ _; rfl
  | cons n ns ih =>
    intro files hnd hst
    have hstep : migFileStep false fn files n = (files, []) := by
      by_cases hmd : isMd n = true
      · cases hfind : files.find? (fun f => f.name = n) with
        | none => simp [migFileStep, hmd, hfind]
        | some f₀ =>
          obtain ⟨hf₀mem, hf₀name⟩ := find?_file_facts hfind
          rcases hst f₀ hf₀mem (by rw [hf₀name]; exact hmd) with hart | hart
          · simp [migFileStep, hmd, hfind, hart]
          · rw [hf₀name] at hart
            simp [migFileStep, hmd, hfind, hart]
      · simp [migFileStep, hmd]
    unfold migFilesLoop
    rw [hstep]
    simp only
    rw [ih files hnd hst]
    rfl

lemma mergeInto_noop (srcName dstName : Str) :
    ∀ (src dst : List AFile),
      (∀ f ∈ src, f.name ∈ dst.map AFile.name) →
      mergeInto srcName dstName src dst = (src, dst, []) := by
  intro src
  induction src with
  | nil => intro dst _; rfl
  | cons f rest ih =>
    intro dst hall
    have hmem := hall f (List.mem_cons_self _ _)
    have hany : dst.any (fun g => g.name = f.name) = true := by
      rw [List.any_eq_true]
      rcases List.mem_map.mp hmem with ⟨g, hg, he⟩
      exact ⟨g, hg, by simp [he]⟩
    unfold mergeInto
    rw [if_pos hany]
    rw [ih dst (fun g hg => hall g (List.mem_cons_of_mem _ hg))]

/-- A dated top-level entry is skipped unconditionally: no state change
and no filesystem operation, in any mode. -/
lemma migStep_dated_skip (idx : List ConvRec) (dry : Bool) (st : List Folder) (e : Str)
    (hd : matchesDated e = true) :
    migStep idx dry st e = (st, []) := by
  unfold migStep
  cases hf : st.find? (fun F => F.name = e) with
  | none => rfl
  | some F =>
    simp only []
    rw [if_pos hd]

/-- On a state satisfying the leftover invariant, one step is a no-op. -/
lemma migStep_noop {idx : List ConvRec} {st : List Folder} {e : Str}
    (hdx : datedIdx idx) (hwf : wfFolders st) (hinv : MigInv idx st) :
    migStep idx false st e = (st, []) := by
  unfold migStep
  cases hf : st.find? (fun F => F.name = e) with
  | none => rfl
  | some F =>
    obtain ⟨hFmem, hFname⟩ := find?_name_facts hf
    simp only []
    by_cases h1 : matchesDated e = true
    · rw [if_pos h1]
    · rw [if_neg h1]
      by_cases h2 : matchesUuid e = true
      · rw [if_neg (by simpa using h2)]
        by_cases h3 : titleOf idx e = []
        · rw [if_pos h3]
        · rw [if_neg h3]
          have hlft : LeftoverInv idx st F := by
            apply hinv F hFmem
            · rw [hFname]; simpa using h1
            · rw [hFname]; exact h2
            · rw [hFname]; exact h3
          obtain ⟨hstable, hne, D, hDmem, hDname, hDall⟩ := hlft
          have hfilesnd : (F.files.map AFile.name).Nodup := hwf.2 F hFmem
          rw [migFilesLoop_stable_noop e _ F.files hfilesnd hstable]
          simp only
          rw [updFiles_self hwf.1 hFmem hFname]
          rw [hFname] at hDname
          have htgt : matchesDated (targetName idx e) = true := matchesDated_targetName hdx h3
          have hne2 : ¬ e = targetName idx e := by
            intro he
            rw [← he] at htgt
            rw [htgt] at h1
            exact h1 rfl
          rw [if_neg hne2, if_neg (by simp)]
          have hfindD : st.find? (fun G => G.name = targetName idx e) = some D := by
            have := find?_of_nodup_names hwf.1 hDmem
            rw [hDname] at this
            exact this
          rw [hfindD]
          simp only []
          rw [mergeInto_noop e (targetName idx e) F.files D.files hDall]
          simp only
          rw [if_neg hne]
          rw [updFiles_self hwf.1 hDmem hDname]
          rw [updFiles_self hwf.1 hFmem hFname]
          rfl
      · rw [if_pos (by simpa using h2)]

lemma migrateList_noop {idx : List ConvRec} (hdx : datedIdx idx) :
    ∀ (ns : List Str) (st : List Folder),
      wfFolders st → MigInv idx st →
      migrateList idx false st ns = (st, []) := by
  intro ns
  induction ns with
  | nil => intro st _ _; rfl
  | cons n ns ih =>
    intro st hwf hinv
    unfold migrateList
    rw [migStep_noop hdx hwf hinv]
    simp only
    rw [ih st hwf hinv]
    rfl

lemma mergeInto_dst_nodup {a b : Str} {src dst : List AFile}
    (hsrc : (src.map AFile.name).Nodup) (hdst : (dst.map AFile.name).Nodup) :
    (((mergeInto a b src dst).2.1).map AFile.name).Nodup := by
  rw [(mergeInto_eq a b src dst hsrc).2, List.map_append, List.nodup_append]
  refine ⟨hdst, ((List.filter_sublist src).map AFile.name).nodup hsrc, ?_⟩
  intro x hx1 hx2
  rcases List.mem_map.mp hx2 with ⟨g, hg, he⟩
  have h2 := (List.mem_filter.mp hg).2
  rw [decide_eq_true_iff] at h2
  rw [he] at h2
  exact h2 hx1

lemma updFiles_mem_new {st : List Folder} {nm : Str} {fl : List AFile} {F : Folder}
    (hF : F ∈ st) (hname : F.name = nm) :
    (⟨nm, fl⟩ : Folder) ∈ updFiles st nm fl :=
  mem_updFiles.mpr ⟨F, hF, by rw [if_pos hname, hname]⟩

lemma migStep_process {idx : List ConvRec} {st : List Folder} {n : Str} {F₀ : Folder}
    (hdx : datedIdx idx) (hwf : wfFolders st)
    (hfind : st.find? (fun G => G.name = n) = some F₀)
    (h1 : matchesDated n = false) (h2 : matchesUuid n = true)
    (h3 : titleOf idx n ≠ []) :
    ∃ st' ops, migStep idx false st n = (st', ops) ∧
      wfFolders st' ∧
      (∀ G ∈ st', matchesDated G.name = false → G.name ≠ n → G ∈ st) ∧
      (∀ D ∈ st, matchesDated D.name = true →
        ∃ D' ∈ st', D'.name = D.name ∧
          ∀ x ∈ D.files.map AFile.name, x ∈ D'.files.map AFile.name) ∧
      (∀ G ∈ st', G.name = n → LeftoverInv idx st' G) ∧
      (∀ G ∈ st, G.name ≠ n → matchesDated G.name = false → G ∈ st') := by
  obtain ⟨hF₀mem, hF₀name⟩ := find?_name_facts hfind
  have hfilesnd := hwf.2 F₀ hF₀mem
  rcases hp : migFilesLoop false n F₀.files (sortStr (F₀.files.map (fun f => f.name))) with ⟨p1, p2⟩
  have hstab0 := migFilesLoop_stable n (sortStr (F₀.files.map (fun f => f.name))) F₀.files hfilesnd
    (fun f hf => Or.inl ((sortStr_perm _).mem_iff.mpr (List.mem_map.mpr ⟨f, hf, rfl⟩)))
  rw [hp] at hstab0
  obtain ⟨hp1stab, hp1nd⟩ := hstab0
  simp only at hp1stab hp1nd
  have htgt : matchesDated (targetName idx n) = true := matchesDated_targetName hdx h3
  have hnen : ¬ n = targetName idx n := by
    intro he
    rw [← he, h1] at htgt
    exact Bool.false_ne_true htgt
  have hwf1 : wfFolders (updFiles st n p1) := wfFolders_updFiles hwf hp1nd
  have hFn1 : (⟨n, p1⟩ : Folder) ∈ updFiles st n p1 := updFiles_mem_new hF₀mem hF₀name
  have hself : ∀ G ∈ st, G.name ≠ n → G ∈ updFiles st n p1 :=
    fun G hG hne => mem_updFiles_of_ne hG hne
  have hmem1 : ∀ G' ∈ updFiles st n p1, G' = ⟨n, p1⟩ ∨ (G' ∈ st ∧ G'.name ≠ n) := by
    intro G' hG'
    rcases mem_updFiles.mp hG' with ⟨G, hG, he⟩
    by_cases h : G.name = n
    · left; rw [he, if_pos h, h]
    · right; rw [he, if_neg h]; exact ⟨hG, h⟩
  cases hDfind : (updFiles st n p1).find? (fun G => G.name = targetName idx n) with
  | none =>
    have hnewNotIn : ∀ G ∈ updFiles st n p1, G.name ≠ targetName idx n := by
      intro G hG
      have := List.find?_eq_none.mp hDfind G hG
      simpa using this
    refine ⟨(updFiles st n p1).map
        (fun G => if G.name = n then ⟨targetName idx n, G.files⟩ else G),
      p2 ++ [Op.folderRename n (targetName idx n)], ?_, ?_, ?_, ?_, ?_, ?_⟩
    · simp only [migStep, hfind]
      rw [if_neg (by simp [h1]), if_neg (by simp [h2]), if_neg h3, hp]
      simp only
      rw [if_neg hnen]
      rw [if_neg (by simp : ¬(false = true))]
      rw [hDfind]
    · constructor
      · rw [List.map_map]
        have hcomp : (Folder.name ∘ fun G =>
            if G.name = n then (⟨targetName idx n, G.files⟩ : Folder) else G) =
            (fun x => if x = n then targetName idx n else x) ∘ Folder.name := by
          funext G
          by_cases h : G.name = n
          · simp [h]
          · simp [h]
        rw [hcomp, ← List.map_map]
        apply List.Nodup.map_on ?_ hwf1.1
        intro x hx y hy hxy
        by_cases hxn : x = n
        · by_cases hyn : y = n
          · rw [hxn, hyn]
          · rw [if_pos hxn, if_neg hyn] at hxy
            exfalso
            rcases List.mem_map.mp hy with ⟨G, hG, hGy⟩
            exact hnewNotIn G hG (by rw [hGy, ← hxy])
        · by_cases hyn : y = n
          · rw [if_neg hxn, if_pos hyn] at hxy
            exfalso
            rcases List.mem_map.mp hx with ⟨G, hG, hGx⟩
            exact hnewNotIn G hG (by rw [hGx, hxy])
          · rw [if_neg hxn, if_neg hyn] at hxy
            exact hxy
      · intro G' hG'
        rcases List.mem_map.mp hG' with ⟨G, hG, he⟩
        by_cases h : G.name = n
        · rw [← he, if_pos h]
          exact hwf1.2 G hG
        · rw [← he, if_neg h]
          exact hwf1.2 G hG
    · intro G hGmem hGdated hGne
      rcases List.mem_map.mp hGmem with ⟨G₁, hG₁, he⟩
      subst he
      by_cases h : G₁.name = n
      · exfalso
        rw [if_pos h] at hGdated
        have hGd2 : matchesDated (targetName idx n) = false := hGdated
        rw [hGd2] at htgt
        exact Bool.false_ne_true htgt
      · rw [if_neg h]
        rw [if_neg h] at hGdated hGne
        rcases hmem1 G₁ hG₁ with h' | h'
        · exfalso
          apply hGne
          rw [h']
        · exact h'.1
    · intro D hDst hDdated
      have hDne : D.name ≠ n := by
        intro he
        rw [he, h1] at hDdated
        exact Bool.false_ne_true hDdated
      have hD1 : D ∈ updFiles st n p1 := hself D hDst hDne
      refine ⟨D, ?_, rfl, fun x hx => hx⟩
      exact List.mem_map.mpr ⟨D, hD1, by rw [if_neg hDne]⟩
    · intro G hGmem hGname
      exfalso
      rcases List.mem_map.mp hGmem with ⟨G₁, hG₁, he⟩
      subst he
      by_cases h : G₁.name = n
      · rw [if_pos h] at hGname
        exact hnen hGname.symm
      · rw [if_neg h] at hGname
        exact h hGname
    · intro G hGst hGne hGdated
      have hG1 : G ∈ updFiles st n p1 := hself G hGst hGne
      exact List.mem_map.mpr ⟨G, hG1, by rw [if_neg hGne]⟩
  | some D =>
    have hDfacts := find?_name_facts hDfind
    obtain ⟨hDmem1, hDname⟩ := hDfacts
    have hDst : D ∈ st ∧ D.name ≠ n := by
      rcases hmem1 D hDmem1 with h | h
      · exfalso
        have : D.name = n := by rw [h]
        rw [this] at hDname
        exact hnen hDname
      · exact h
    rcases hq : mergeInto n (targetName idx n) p1 D.files with ⟨q1, qrest⟩
    rcases hq2 : qrest with ⟨q21, q22⟩
    subst hq2
    have hqeq := mergeInto_eq n (targetName idx n) p1 D.files hp1nd
    rw [hq] at hqeq
    obtain ⟨hq1eq, hq21eq⟩ := hqeq
    simp only at hq1eq hq21eq
    have hq21nd : (q21.map AFile.name).Nodup := by
      have := mergeInto_dst_nodup (a := n) (b := targetName idx n) hp1nd (hwf.2 D hDst.1)
      rw [hq] at this
      exact this
    have hwf2 : wfFolders (updFiles (updFiles st n p1) (targetName idx n) q21) :=
      wfFolders_updFiles hwf1 hq21nd
    have hDn2 : (⟨targetName idx n, q21⟩ : Folder) ∈
        updFiles (updFiles st n p1) (targetName idx n) q21 :=
      updFiles_mem_new hDmem1 hDname
    have hself2 : ∀ G ∈ updFiles st n p1, G.name ≠ targetName idx n →
        G ∈ updFiles (updFiles st n p1) (targetName idx n) q21 :=
      fun G hG hne => mem_updFiles_of_ne hG hne
    have hmem2 : ∀ G' ∈ updFiles (updFiles st n p1) (targetName idx n) q21,
        G' = ⟨targetName idx n, q21⟩ ∨
        (G' ∈ updFiles st n p1 ∧ G'.name ≠ targetName idx n) := by
      intro G' hG'
      rcases mem_updFiles.mp hG' with ⟨G, hG, he⟩
      by_cases h : G.name = targetName idx n
      · left; rw [he, if_pos h, h]
      · right; rw [he, if_neg h]; exact ⟨hG, h⟩
    have hq21names : ∀ x ∈ D.files.map AFile.name, x ∈ q21.map AFile.name := by
      intro x hx
      rw [hq21eq, List.map_append, List.mem_append]
      exact Or.inl hx
    have hInSt : ∀ G', G' ∈ updFiles (updFiles st n p1) (targetName idx n) q21 →
        matchesDated G'.name = false → G'.name ≠ n → G' ∈ st := by
      intro G' hG' hdated hne
      rcases hmem2 G' hG' with h | ⟨hG1, _⟩
      · exfalso
        rw [h] at hdated
        have : matchesDated (targetName idx n) = false := hdated
        rw [this] at htgt
        exact Bool.false_ne_true htgt
      · rcases hmem1 G' hG1 with h' | h'
        · exfalso
          apply hne
          rw [h']
        · exact h'.1
    have hSurvive : ∀ G ∈ st, G.name ≠ n → matchesDated G.name = false →
        G ∈ updFiles (updFiles st n p1) (targetName idx n) q21 := by
      intro G hGst hne hdated
      have hnet : G.name ≠ targetName idx n := by
        intro he
        rw [he, htgt] at hdated
        exact Bool.false_ne_true hdated.symm
      exact hself2 G (hself G hGst hne) hnet
    have hTgtMono : ∀ D₁ ∈ st, matchesDated D₁.name = true →
        ∃ D' ∈ updFiles (updFiles st n p1) (targetName idx n) q21, D'.name = D₁.name ∧
          ∀ x ∈ D₁.files.map AFile.name, x ∈ D'.files.map AFile.name := by
      intro D₁ hD₁st hD₁dated
      have hD₁ne : D₁.name ≠ n := by
        intro he
        rw [he, h1] at hD₁dated
        exact Bool.false_ne_true hD₁dated
      by_cases hD₁t : D₁.name = targetName idx n
      · have hD₁D : D₁ = D := by
          apply List.inj_on_of_nodup_map hwf.1 hD₁st hDst.1
          rw [hD₁t, hDname]
        refine ⟨⟨targetName idx n, q21⟩, hDn2, ?_, ?_⟩
        · show targetName idx n = D₁.name
          rw [hD₁t]
        · intro x hx
          apply hq21names
          rw [← hD₁D]
          exact hx
      · have hD₁1 : D₁ ∈ updFiles st n p1 := hself D₁ hD₁st hD₁ne
        exact ⟨D₁, hself2 D₁ hD₁1 hD₁t, rfl, fun x hx => hx⟩
    by_cases hq1e : q1 = []
    · refine ⟨(updFiles (updFiles st n p1) (targetName idx n) q21).filter
          (fun G => G.name ≠ n),
        p2 ++ q22 ++ [Op.rmdir n], ?_, ?_, ?_, ?_, ?_, ?_⟩
      · simp only [migStep, hfind]
        rw [if_neg (by simp [h1]), if_neg (by simp [h2]), if_neg h3, hp]
        simp only
        rw [if_neg hnen, if_neg (by simp : ¬(false = true)), hDfind]
        simp only []
        rw [hq]
        simp only
        rw [if_pos hq1e]
      · refine ⟨?_, ?_⟩
        · exact ((List.filter_sublist _).map Folder.name).nodup hwf2.1
        · intro G hG
          exact hwf2.2 G (List.mem_of_mem_filter hG)
      · intro G hGmem hGdated hGne
        exact hInSt G (List.mem_of_mem_filter hGmem) hGdated hGne
      · intro D₁ hD₁st hD₁dated
        obtain ⟨D', hD'mem, hD'name, hD'sub⟩ := hTgtMono D₁ hD₁st hD₁dated
        have hD'ne : D'.name ≠ n := by
          rw [hD'name]
          intro he
          rw [he, h1] at hD₁dated
          exact Bool.false_ne_true hD₁dated
        refine ⟨D', List.mem_filter.mpr ⟨hD'mem, by simpa using hD'ne⟩, hD'name, hD'sub⟩
      · intro G hGmem hGname
        exfalso
        have := (List.mem_filter.mp hGmem).2
        rw [decide_eq_true_iff] at this
        exact this hGname
      · intro G hGst hGne hGdated
        exact List.mem_filter.mpr ⟨hSurvive G hGst hGne hGdated, by simpa using hGne⟩
    · have hq1nd : (q1.map AFile.name).Nodup := by
        rw [hq1eq]
        exact ((List.filter_sublist p1).map AFile.name).nodup hp1nd
      have hmem3 : ∀ G' ∈ updFiles (updFiles (updFiles st n p1) (targetName idx n) q21) n q1,
          G' = ⟨n, q1⟩ ∨
          (G' ∈ updFiles (updFiles st n p1) (targetName idx n) q21 ∧ G'.name ≠ n) := by
        intro G' hG'
        rcases mem_updFiles.mp hG' with ⟨G, hG, he⟩
        by_cases h : G.name = n
        · left; rw [he, if_pos h, h]
        · right; rw [he, if_neg h]; exact ⟨hG, h⟩
      refine ⟨updFiles (updFiles (updFiles st n p1) (targetName idx n) q21) n q1,
        p2 ++ q22, ?_, ?_, ?_, ?_, ?_, ?_⟩
      · simp only [migStep, hfind]
        rw [if_neg (by simp [h1]), if_neg (by simp [h2]), if_neg h3, hp]
        simp only
        rw [if_neg hnen, if_neg (by simp : ¬(false = true)), hDfind]
        simp only []
        rw [hq]
        simp only
        rw [if_neg hq1e]
      · exact wfFolders_updFiles hwf2 hq1nd
      · intro G hGmem hGdated hGne
        rcases hmem3 G hGmem with h | ⟨hG2, _⟩
        · exfalso
          apply hGne
          rw [h]
        · exact hInSt G hG2 hGdated hGne
      · intro D₁ hD₁st hD₁dated
        obtain ⟨D', hD'mem, hD'name, hD'sub⟩ := hTgtMono D₁ hD₁st hD₁dated
        have hD'ne : D'.name ≠ n := by
          rw [hD'name]
          intro he
          rw [he, h1] at hD₁dated
          exact Bool.false_ne_true hD₁dated
        exact ⟨D', mem_updFiles_of_ne hD'mem hD'ne, hD'name, hD'sub⟩
      · intro G hGmem hGname
        have hGeq : G = ⟨n, q1⟩ := by
          rcases hmem3 G hGmem with h | ⟨_, hne⟩
          · exact h
          · exact absurd hGname hne
        subst hGeq
        refine ⟨?_, hq1e, ⟨targetName idx n, q21⟩,
          mem_updFiles_of_ne hDn2 (by intro he; exact hnen he.symm), ?_, ?_⟩
        · intro f hf
          apply hp1stab
          rw [hq1eq] at hf
          exact List.mem_of_mem_filter hf
        · show targetName idx n = targetName idx n
          rfl
        · intro f hf
          rw [hq1eq] at hf
          have hcond := (List.mem_filter.mp hf).2
          rw [decide_eq_true_iff] at hcond
          exact hq21names f.name hcond
      · intro G hGst hGne hGdated
        exact mem_updFiles_of_ne (hSurvive G hGst hGne hGdated) hGne

lemma migrateList_establishes {idx : List ConvRec} (hdx : datedIdx idx) :
    ∀ (ns : List Str) (st : List Folder),
      ns.Nodup →
      wfFolders st →
      (∀ F ∈ st, matchesDated F.name = false → matchesUuid F.name = true →
        titleOf idx F.name ≠ [] → F.name ∈ ns ∨ LeftoverInv idx st F) →
      wfFolders (migrateList idx false st ns).1 ∧ MigInv idx (migrateList idx false st ns).1 := by
  intro ns
  induction ns with
  | nil =>
    intro st _ hwf hpre
    refine ⟨hwf, ?_⟩
    intro F hF hd hu ht
    rcases hpre F hF hd hu ht with h | h
    · simp at h
    · exact h
  | cons n ns ih =>
    intro st hnsnd hwf hpre
    rw [List.nodup_cons] at hnsnd
    obtain ⟨hn_notin, hns⟩ := hnsnd
    unfold migrateList
    cases hfind : st.find? (fun G => G.name = n) with
    | none =>
      have hstep : migStep idx false st n = (st, []) := by
        simp [migStep, hfind]
      rw [hstep]
      simp only
      apply ih st hns hwf
      intro F hF hd hu ht
      rcases hpre F hF hd hu ht with h | h
      · rcases List.mem_cons.mp h with h' | h'
        · exfalso
          have := List.find?_eq_none.mp hfind F hF
          simp [h'] at this
        · exact Or.inl h'
      · exact Or.inr h
    | some F₀ =>
      by_cases h1 : matchesDated n = true
      · have hstep : migStep idx false st n = (st, []) :=
          migStep_dated_skip idx false st n h1
        rw [hstep]
        simp only
        apply ih st hns hwf
        intro F hF hd hu ht
        rcases hpre F hF hd hu ht with h | h
        · rcases List.mem_cons.mp h with h' | h'
          · exfalso
            rw [h', h1] at hd
            exact Bool.false_ne_true hd.symm
          · exact Or.inl h'
        · exact Or.inr h
      · rw [Bool.not_eq_true] at h1
        by_cases h2 : matchesUuid n = true
        · by_cases h3 : titleOf idx n = []
          · have hstep : migStep idx false st n = (st, []) := by
              simp [migStep, hfind, h1, h2, h3]
            rw [hstep]
            simp only
            apply ih st hns hwf
            intro F hF hd hu ht
            rcases hpre F hF hd hu ht with h | h
            · rcases List.mem_cons.mp h with h' | h'
              · exfalso
                rw [h'] at ht
                exact ht h3
              · exact Or.inl h'
            · exact Or.inr h
          · obtain ⟨st', ops, hstep, hwf', hInSt, hTgt, hLft, hSurv⟩ :=
              migStep_process hdx hwf hfind h1 h2 h3
            rw [hstep]
            simp only
            apply ih st' hns hwf'
            intro F hF hd hu ht
            by_cases hFn : F.name = n
            · exact Or.inr (hLft F hF hFn)
            · have hFst : F ∈ st := hInSt F hF hd hFn
              rcases hpre F hFst hd hu ht with h | h
              · rcases List.mem_cons.mp h with h' | h'
                · exact absurd h' hFn
                · exact Or.inl h'
              · obtain ⟨hstab, hne, D, hDmem, hDname, hDsub⟩ := h
                right
                have hDdated : matchesDated D.name = true := by
                  rw [hDname]
                  exact matchesDated_targetName hdx ht
                obtain ⟨D', hD'mem, hD'name, hD'sub⟩ := hTgt D hDmem hDdated
                refine ⟨hstab, hne, D', hD'mem, by rw [hD'name, hDname], ?_⟩
                intro f hf
                exact hD'sub f.name (hDsub f hf)
        · have hstep : migStep idx false st n = (st, []) := by
            simp only [Bool.not_eq_true] at h2
            simp [migStep, hfind, h1, h2]
          rw [hstep]
          simp only
          apply ih st hns hwf
          intro F hF hd hu ht
          rcases hpre F hF hd hu ht with h | h
          · rcases List.mem_cons.mp h with h' | h'
            · exfalso
              rw [h'] at hu
              exact h2 hu
            · exact Or.inl h'
          · exact Or.inr h

/-- C2 amended: on a well-formed vault whose indexed conversation records
all carry a parsable creation date, running the Migrator twice (non-dry)
leaves the state of the second run identical to that of the first, and the
second run performs zero filesystem operations; independently, a top-level
entry whose name matches the dated-prefix pattern is skipped
unconditionally by the per-entry step, in any mode and on any state. -/
theorem c2_amended_idempotence (fs : FS)
    (hwf : ∀ l, fs.artifacts = some l → wfFolders l)
    (hdated : ∀ r ∈ buildIdx (fs.conversations.getD []), datePrefixOf r.ctime ≠ []) :
    (migrateMain argvPlain (migrateMain argvPlain fs).fs).fs = (migrateMain argvPlain fs).fs ∧
    (migrateMain argvPlain (migrateMain argvPlain fs).fs).ops = [] ∧
    (∀ (idx : List ConvRec) (dry : Bool) (st : List Folder) (e : Str),
      matchesDated e = true → migStep idx dry st e = (st, [])) := by
  have hdx : datedIdx (buildIdx (fs.conversations.getD [])) := datedIdx_of_entries hdated
  obtain ⟨arts, convs⟩ := fs
  cases arts with
  | none =>
    refine ⟨by simp [migrateMain], by simp [migrateMain], ?_⟩
    exact fun idx dry st e hd => migStep_dated_skip idx dry st e hd
  | some folders =>
    have hwff : wfFolders folders := hwf folders rfl
    rcases hr1 : migrateRun (buildIdx (convs.getD [])) false folders with ⟨st1, ops1⟩
    have hest := migrateList_establishes hdx (sortStr (folders.map (fun F => F.name))) folders
      ((sortStr_perm _).nodup_iff.mpr hwff.1) hwff
      (fun F hF _ _ _ =>
        Or.inl ((sortStr_perm _).mem_iff.mpr (List.mem_map.mpr ⟨F, hF, rfl⟩)))
    unfold migrateRun at hr1
    rw [hr1] at hest
    simp only at hest
    have hr2 : migrateRun (buildIdx (convs.getD [])) false st1 = (st1, []) := by
      unfold migrateRun
      exact migrateList_noop hdx _ st1 hest.1 hest.2
    have hdry : decide (dryFlag ∈ argvPlain) = false := by decide
    have hm1 : migrateMain argvPlain ⟨some folders, convs⟩ = ⟨0, ⟨some st1, convs⟩, ops1⟩ := by
      simp only [migrateMain]
      rw [if_neg (by decide)]
      simp only [hdry]
      unfold migrateRun
      rw [hr1]
    have hm2 : migrateMain argvPlain ⟨some st1, convs⟩ = ⟨0, ⟨some st1, convs⟩, []⟩ := by
      simp only [migrateMain]
      rw [if_neg (by decide)]
      simp only [hdry]
      rw [hr2]
    refine ⟨?_, ?_, fun idx dry st e hd => migStep_dated_skip idx dry st e hd⟩
    · rw [hm1]
      simp only
      rw [hm2]
    · rw [hm1]
      simp only
      rw [hm2]

/-- Witness for C2 amended on the concrete scenario vault. -/
theorem c2_amended_idempotence_witness :
    (migrateMain argvPlain (migrateMain argvPlain c1fs).fs).fs = (migrateMain argvPlain c1fs).fs ∧
    (migrateMain argvPlain (migrateMain argvPlain c1fs).fs).ops = [] ∧
    (∀ (idx : List ConvRec) (dry : Bool) (st : List Folder) (e : Str),
      matchesDated e = true → migStep idx dry st e = (st, [])) :=
  c2_amended_idempotence c1fs
    (by intro l hl; cases hl; exact ⟨by decide, by decide⟩)
    (by decide)
